import Mathlib

/-!
Verification of the message/tool-call stream reconciliation logic of the
JANIS agentic-researcher chat client.

The definitions below are a shallow embedding of:
* `toolCallsInMessage` / `toolCallsWithStatus` / `processedMessages`
  (frontend/src/app/components/ChatInterface/ChatInterface.tsx),
* `subAgentToolCalls` (frontend/src/app/page.tsx),
* `parseOutlineJSON`'s validation stage (outline utils).

Modelling conventions:
* JavaScript objects become structures; absent fields are `none`.
* JavaScript string truthiness (`""` and `undefined` are falsy) is `truthy`.
* `Math.random()` is modelled by an explicit stream `rnd : Nat → String`
  together with a counter threaded through the state; each placeholder id
  consumes one element of the stream.
* JS `Map` (insertion ordered, in-place update) is an association list.
* Message ids are taken as present (the source asserts them with `!`);
  tool-call arguments are modelled as opaque strings.
-/

namespace Janis

/-- JS truthiness for an optional string: `undefined` and `""` are falsy. -/
def truthy : Option String → Option String
  | some s => if s = "" then none else some s
  | none => none

/-- `a || d` for a string with a string default. -/
def jsOr (a : Option String) (d : String) : String := (truthy a).getD d

/-- `a || b` for two optional strings (the JS `||` chain on possibly-absent strings). -/
def jsOrO (a b : Option String) : Option String :=
  match truthy a with
  | some s => some s
  | none => b

/-- First truthy value in a `||` chain, with a final default. -/
def firstTruthy (l : List (Option String)) (d : String) : String :=
  (l.filterMap truthy).headD d

/-- A raw (wire-format) tool call / tool-use block, before normalization.
`funcName`/`funcArgs` model `toolCall.function?.name` / `?.arguments`;
`ty` models the block `type` field. -/
structure RawToolCall where
  id : Option String := none
  name : Option String := none
  ty : Option String := none
  funcName : Option String := none
  funcArgs : Option String := none
  args : Option String := none
  input : Option String := none
  status : Option String := none
  result : Option String := none
deriving Repr, DecidableEq

/-- `additional_kwargs._subagent_source`. -/
structure SubagentSource where
  subagent_type : String
  tool_call_id : String
deriving Repr, DecidableEq

/-- Message content: a plain string or an array of content blocks. -/
inductive MsgContent where
  | text (s : String)
  | blocks (bs : List RawToolCall)
deriving Repr, DecidableEq

inductive MsgType where
  | ai
  | human
  | tool
deriving Repr, DecidableEq

/-- A message of the conversation buffer (LangGraph SDK `Message`), restricted
to the fields the reconciliation reads.  `carried_*` model the sub-agent
bundle a ToolMessage may carry (the source probes `additional_kwargs`, the
object itself and embedded JSON; all three deliver the same payload, modelled
as one optional field). -/
structure Message where
  id : String
  type : MsgType
  content : MsgContent := .text ""
  tool_calls : Option (List RawToolCall) := none
  kw_tool_calls : Option (List RawToolCall) := none
  kw_subagent_tool_calls : Option (List RawToolCall) := none
  subagent_source : Option SubagentSource := none
  tool_call_id : Option String := none
  carried_subagent_tool_calls : Option (List RawToolCall) := none
  carried_subagent_type : Option String := none
deriving Repr, DecidableEq

/-- A normalized `ToolCall` record as built by the reconciliation
(`id`, `name`, `args`, `status`, `result`, `_uniqueId`, `_source`,
`_messageId`, `subagentType`, `parentToolCallId`). -/
structure ToolCall where
  id : String
  name : Option String := none
  args : Option String := none
  status : Option String := none
  result : Option String := none
  uniqueId : String
  source : String
  messageId : String
  subagentType : Option String := none
  parentToolCallId : Option String := none
deriving Repr, DecidableEq

/-- ChatInterface.tsx lines 145–167: collect the raw tool calls of an
assistant message.  The `_subagent_tool_calls` field is an independent `if`;
the remaining three sources form an `if / else if / else if` chain keyed on
field presence (`Array.isArray`), with the legacy `message.tool_calls` list
filtered to drop calls whose `name` is exactly `""`.
`mainSourceCalls` is the chain; `toolCallsInMessage` prepends the
sub-agent field. -/
def mainSourceCalls (m : Message) : List RawToolCall :=
  match m.kw_tool_calls with
  | some l => l
  | none =>
    match m.tool_calls with
    | some l => l.filter (fun tc => tc.name ≠ some "")
    | none =>
      match m.content with
      | .blocks bs => bs.filter (fun b => b.ty = some "tool_use")
      | .text _ => []

def toolCallsInMessage (m : Message) : List RawToolCall :=
  (m.kw_subagent_tool_calls).getD [] ++ mainSourceCalls m

/-- ChatInterface.tsx lines 169–201: normalize one raw call
(`toolCallsWithStatus`).  Returns the record and the advanced random
counter. -/
def normalizeCall (rnd : Nat → String) (m : Message) (src : Option SubagentSource)
    (ctr : Nat) (tc : RawToolCall) : ToolCall × Nat :=
  let name := firstTruthy [tc.funcName, tc.name, tc.ty] "unknown"
  let args := firstTruthy [tc.funcArgs, tc.args, tc.input] "\x7b\x7d"
  let (toolCallId, ctr') :=
    match truthy tc.id with
    | some s => (s, ctr)
    | none => ("tool-" ++ rnd ctr, ctr + 1)
  let parent := src.map (·.tool_call_id)
  let uniqueId := toolCallId ++ "-" ++ parent.getD "main" ++ "-" ++ jsOr (some m.id) "unknown"
  ({ id := toolCallId
     name := some name
     args := some args
     status := some "pending"
     result := none
     uniqueId := uniqueId
     source := "ai_message"
     messageId := m.id
     subagentType := src.map (·.subagent_type)
     parentToolCallId := parent }, ctr')

/-- Normalize a whole extracted list, threading the random counter. -/
def normalizeCalls (rnd : Nat → String) (m : Message) (src : Option SubagentSource) :
    Nat → List RawToolCall → List ToolCall × Nat
  | ctr, [] => ([], ctr)
  | ctr, tc :: rest =>
    let c := normalizeCall rnd m src ctr tc
    let cs := normalizeCalls rnd m src c.2 rest
    (c.1 :: cs.1, cs.2)

/-- One `subagent_tool_calls_map` entry: `{tool_calls, subagent_type}`. -/
structure Bundle where
  tool_calls : List RawToolCall
  subagent_type : Option String := none
deriving Repr, DecidableEq

/-- A per-message view entry (`messageMap` value): `{message, toolCalls,
subagentToolCalls}`.  Human entries are created without a sub-agent list;
every read of that field in the source goes through `|| []`, so it is
modelled as the empty list. -/
structure EntryData where
  message : Message
  toolCalls : List ToolCall := []
  subagentToolCalls : List ToolCall := []
deriving Repr, DecidableEq

/-- Reconciliation state: the insertion-ordered `messageMap`, the two
deduplication sets (`globalToolCallIds`, `allToolCallIdsByActualId`) and the
random counter. -/
structure RecState where
  messageMap : List (String × EntryData) := []
  globalIds : List String := []
  actualIds : List String := []
  ctr : Nat := 0
deriving Repr, DecidableEq

/-- JS `Map.set`: update in place if the key exists, else append. -/
def mapSet (m : List (String × EntryData)) (k : String) (v : EntryData) :
    List (String × EntryData) :=
  if m.any (fun p => p.1 = k) then
    m.map (fun p => if p.1 = k then (k, v) else p)
  else m ++ [(k, v)]

/-- JS `Map.get`. -/
def mapGet (m : List (String × EntryData)) (k : String) : Option EntryData :=
  (m.find? (fun p => p.1 = k)).map (·.2)

/-- JS `Set.add`. -/
def setInsert (s : List String) (x : String) : List String :=
  if x ∈ s then s else s ++ [x]

/-- Update the first element satisfying `p` (JS `findIndex` + indexed write). -/
def updateFirst (p : α → Bool) (f : α → α) : List α → List α
  | [] => []
  | x :: xs => if p x then f x :: xs else x :: updateFirst p f xs

/-- Split a list around the first element satisfying `p`. -/
def splitAtFirst (p : α → Bool) : List α → Option (List α × α × List α)
  | [] => none
  | x :: xs =>
    if p x then some ([], x, xs)
    else
      match splitAtFirst p xs with
      | some (pre, y, post) => some (x :: pre, y, post)
      | none => none

/-- Lines 223–236: merge one main-agent call into an existing entry.
`exIds` is the snapshot of the entry's unique ids taken before the batch. -/
def mergeMainFold (exIds : List String) :
    List ToolCall × List String → ToolCall → List ToolCall × List String
  | (acc, g), tc =>
    if tc.uniqueId ∉ exIds ∧ tc.uniqueId ∉ g then
      (acc ++ [tc], setInsert g tc.uniqueId)
    else (acc, g)

/-- Lines 255–261: on a duplicate re-observation, overwrite the stored call
with the re-delivered one; the object spread does not carry a `result` key,
so the stored result survives, and a `"completed"` status is preserved. -/
def mergeToolCall (old tc : ToolCall) : ToolCall :=
  { tc with
    result := old.result
    status :=
      if old.status = some "completed" then some "completed"
      else some (jsOr tc.status "pending") }

/-- Lines 243–272: merge one sub-agent call into an existing entry. -/
def mergeSubFold (exIds : List String) :
    List ToolCall × List String → ToolCall → List ToolCall × List String
  | (acc, g), tc =>
    if tc.uniqueId ∉ exIds ∧ tc.uniqueId ∉ g then
      (acc ++ [tc], setInsert g tc.uniqueId)
    else
      if acc.any (fun etc => etc.uniqueId = tc.uniqueId) then
        (updateFirst (fun etc => etc.uniqueId = tc.uniqueId) (fun old => mergeToolCall old tc) acc, g)
      else (acc, g)

/-- Lines 277–294: for a first-seen message, record every call's unique id
(and, for non-duplicates, its actual id) in the global sets; the call list
itself is kept as extracted, duplicates included. -/
def trackNewFold : List String × List String → ToolCall → List String × List String
  | (g, a), tc =>
    if tc.uniqueId ∈ g then (g, a)
    else
      let g' := setInsert g tc.uniqueId
      if tc.id ≠ "" then (setInsert g' ("id:" ++ tc.id), setInsert a tc.id)
      else (g', a)

/-- FIRST PASS step (lines 138–309): process one message; only AI messages
have an effect. -/
def pass1Step (rnd : Nat → String) (s : RecState) (m : Message) : RecState :=
  match m.type with
  | .ai =>
    let src := m.subagent_source
    let isSub := src.isSome
    let nres := normalizeCalls rnd m src s.ctr (toolCallsInMessage m)
    let tcs := nres.1
    let ctr' := nres.2
    match mapGet s.messageMap m.id with
    | some ex =>
      if isSub then
        if tcs ≠ [] then
          let mg :=
            tcs.foldl (mergeSubFold (ex.subagentToolCalls.map (·.uniqueId)))
              (ex.subagentToolCalls, s.globalIds)
          { s with
            messageMap := mapSet s.messageMap m.id ⟨m, [], mg.1⟩
            globalIds := mg.2
            ctr := ctr' }
        else
          { s with messageMap := mapSet s.messageMap m.id ⟨m, [], []⟩, ctr := ctr' }
      else
        if tcs ≠ [] then
          let mg :=
            tcs.foldl (mergeMainFold (ex.toolCalls.map (·.uniqueId)))
              (ex.toolCalls, s.globalIds)
          { s with
            messageMap := mapSet s.messageMap m.id ⟨m, mg.1, []⟩
            globalIds := mg.2
            ctr := ctr' }
        else
          { s with messageMap := mapSet s.messageMap m.id ⟨m, [], []⟩, ctr := ctr' }
    | none =>
      let ga := tcs.foldl trackNewFold (s.globalIds, s.actualIds)
      { s with
        messageMap :=
          mapSet s.messageMap m.id
            ⟨m, if isSub then [] else tcs, if isSub then tcs else []⟩
        globalIds := ga.1
        actualIds := ga.2
        ctr := ctr' }
  | _ => s

/-- Modelled from the spec: `extractStringFromMessageContent`
(frontend utils, not among the provided sources) extracts the plain text of
a message's content to attach as a tool result. -/
def extractStringFromMessageContent (m : Message) : String :=
  match m.content with
  | .text s => s
  | .blocks _ => ""

/-- Lines 372–376: mark a call completed and attach the result. -/
def completeCall (res : String) (tc : ToolCall) : ToolCall :=
  { tc with status := some "completed", result := some res }

/-- Lines 365–380: a sub-agent ToolMessage updates the first sub-agent call
matching its `tool_call_id`, searching entries in insertion order. -/
def updateFirstEntrySub (res tcid : String) :
    List (String × EntryData) → List (String × EntryData)
  | [] => []
  | (k, d) :: rest =>
    if d.subagentToolCalls.any (fun tc => tc.id = tcid) then
      (k, { d with
            subagentToolCalls :=
              updateFirst (fun tc => tc.id = tcid) (completeCall res) d.subagentToolCalls }) :: rest
    else (k, d) :: updateFirstEntrySub res tcid rest

/-- `subagentToolCallsMap?.[toolCallId]`. -/
def lookupBundle (bm : List (String × Bundle)) (k : String) : Option Bundle :=
  (bm.find? (fun p => p.1 = k)).map (·.2)

/-- Lines 496–538: add one bundle call from the state map to the delegating
entry's sub-agent list, unless it is a duplicate by id, by unique id, or by
the ids already added in this batch.  State: (list, globalIds, actualIds,
batch ids, counter). -/
def stateMapAdd (rnd : Nat → String) (tcid mId : String) (expTy subTy : Option String) :
    List ToolCall × List String × List String × List String × Nat → RawToolCall →
    List ToolCall × List String × List String × List String × Nat
  | (acc, g, a, exIds, ctr), tc =>
    let (tcId, ctr') :=
      match truthy tc.id with
      | some s => (s, ctr)
      | none => ("tool-" ++ rnd ctr, ctr + 1)
    let uid := tcId ++ "-" ++ tcid ++ "-" ++ jsOr (some mId) "tool-msg"
    let dupById := tcId ≠ "" ∧ (tcId ∈ a ∨ ("id:" ++ tcId) ∈ g)
    if dupById ∨ uid ∈ g ∨ tcId ∈ exIds then (acc, g, a, exIds, ctr')
    else
      let newCall : ToolCall :=
        { id := tcId
          name := tc.name
          args := tc.args
          status := tc.status
          result := tc.result
          uniqueId := uid
          source := "state_map"
          messageId := mId
          subagentType := jsOrO expTy subTy
          parentToolCallId := some tcid }
      let g' := setInsert g uid
      let (g'', a') :=
        if tcId ≠ "" then (setInsert g' ("id:" ++ tcId), setInsert a tcId)
        else (g', a)
      (acc ++ [newCall], g'', a', exIds ++ [tcId], ctr')

/-- Lines 462–483: pick the bundle to merge — the ToolMessage's own payload
when non-empty, else the state map's entry — together with the sub-agent
type (`stateData.subagent_type || subagentType`). -/
def resolvedBundle (bm : List (String × Bundle)) (m : Message) (tcid : String) :
    Option (List RawToolCall) × Option String :=
  if (m.carried_subagent_tool_calls).getD [] = [] then
    match lookupBundle bm tcid with
    | some sd => (some sd.tool_calls, jsOrO sd.subagent_type m.carried_subagent_type)
    | none => (m.carried_subagent_tool_calls, m.carried_subagent_type)
  else (m.carried_subagent_tool_calls, m.carried_subagent_type)

/-- Lines 459–547: unless skipped, merge the resolved bundle into the
delegating entry's sub-agent list (guarded by the sub-agent type check at
line 487).  Returns the new list, the two sets and the counter. -/
def bundleMerge (rnd : Nat → String) (bm : List (String × Bundle)) (m : Message)
    (tcid : String) (skip : Bool) (subCalls : List ToolCall) (g1 a1 : List String)
    (ctr : Nat) : List ToolCall × List String × List String × Nat :=
  if skip then (subCalls, g1, a1, ctr)
  else
    match (resolvedBundle bm m tcid).1 with
    | some l =>
      if l ≠ [] then
        let subTy := (resolvedBundle bm m tcid).2
        let expTy := jsOrO ((lookupBundle bm tcid).bind (·.subagent_type)) subTy
        if truthy subTy = none ∨ truthy expTy = none ∨ subTy = expTy then
          let r := l.foldl (stateMapAdd rnd tcid m.id expTy subTy) (subCalls, g1, a1, [], ctr)
          (r.1, r.2.1, r.2.2.1, r.2.2.2.2)
        else (subCalls, g1, a1, ctr)
      else (subCalls, g1, a1, ctr)
    | none => (subCalls, g1, a1, ctr)

/-- Lines 426–448: when the state-map ids are not already known, scan all
entries for sub-agent calls of this delegation; if some entry has any,
register their ids in the sets (and the merge will be skipped). -/
def scanHits (liveMap : List (String × EntryData)) (tcid : String) :
    Option (List ToolCall) :=
  liveMap.findSome? (fun p =>
    let hits := p.2.subagentToolCalls.filter (fun tc => tc.parentToolCallId = some tcid)
    if hits ≠ [] then some hits else none)

/-- Lines 383–561: a main-agent ToolMessage.  Find the first entry owning the
answered call, complete it, then reconcile the sub-agent bundle (from the
message's own payload or the state map) into that entry — skipped entirely
when any of the bundle's ids is already registered or any entry already holds
sub-agent calls for this delegation. -/
def mainResultPass (rnd : Nat → String) (bm : List (String × Bundle)) (m : Message)
    (tcid : String) (s : RecState) : RecState :=
  match splitAtFirst (fun p => p.2.toolCalls.any (fun tc => tc.id = tcid)) s.messageMap with
  | none => s
  | some (pre, (k, d), post) =>
    let d1 : EntryData :=
      { d with
        toolCalls :=
          updateFirst (fun tc => tc.id = tcid)
            (completeCall (extractStringFromMessageContent m)) d.toolCalls }
    let liveMap := pre ++ (k, d1) :: post
    let stateToolCalls := ((lookupBundle bm tcid).map (·.tool_calls)).getD []
    let existsById :=
      stateToolCalls.any (fun tc =>
        match truthy tc.id with
        | some sid => decide (sid ∈ s.actualIds ∨ ("id:" ++ sid) ∈ s.globalIds)
        | none => false)
    let scan := if existsById then none else scanHits liveMap tcid
    let ga :=
      match scan with
      | some hits =>
        hits.foldl (fun (ga : List String × List String) (tc : ToolCall) =>
          let g' := if tc.id ≠ "" then setInsert ga.1 ("id:" ++ tc.id) else ga.1
          let a' := if tc.id ≠ "" then setInsert ga.2 tc.id else ga.2
          (setInsert g' tc.uniqueId, a')) (s.globalIds, s.actualIds)
      | none => (s.globalIds, s.actualIds)
    let b :=
      bundleMerge rnd bm m tcid (existsById || scan.isSome) d1.subagentToolCalls ga.1 ga.2 s.ctr
    { messageMap := pre ++ (k, { d1 with subagentToolCalls := b.1 }) :: post
      globalIds := b.2.1
      actualIds := b.2.2.1
      ctr := b.2.2.2 }

/-- SECOND PASS step (lines 312–564): process one message; only ToolMessages
with a truthy `tool_call_id` have an effect. -/
def pass2Step (rnd : Nat → String) (bm : List (String × Bundle)) (s : RecState)
    (m : Message) : RecState :=
  match m.type with
  | .tool =>
    match truthy m.tool_call_id with
    | none => s
    | some tcid =>
      if m.subagent_source.isSome then
        { s with
          messageMap :=
            updateFirstEntrySub (extractStringFromMessageContent m) tcid s.messageMap }
      else mainResultPass rnd bm m tcid s
  | _ => s

/-- THIRD PASS step (lines 567–574): human messages not yet in the map get a
plain entry. -/
def pass3Step (s : RecState) (m : Message) : RecState :=
  match m.type with
  | .human =>
    if (mapGet s.messageMap m.id).isSome then s
    else { s with messageMap := s.messageMap ++ [(m.id, ⟨m, [], []⟩)] }
  | _ => s

/-- Lines 576–596: rebuild the entry array in the order of first appearance
of each message id in the raw sequence, then append any map entry whose key
never occurs in the sequence. -/
def orderStep (map : List (String × EntryData)) (st : List EntryData × List String)
    (m : Message) : List EntryData × List String :=
  match mapGet map m.id with
  | some d => if m.id ∈ st.2 then st else (st.1 ++ [d], st.2 ++ [m.id])
  | none => st

def orderPass (msgs : List Message) (map : List (String × EntryData)) : List EntryData :=
  let res := msgs.foldl (orderStep map) ([], [])
  res.1 ++ (map.filter (fun p => p.1 ∉ res.2)).map (·.2)

/-- A render-ready entry. -/
structure ViewEntry where
  message : Message
  toolCalls : List ToolCall := []
  subagentToolCalls : List ToolCall := []
  showAvatar : Bool
deriving Repr, DecidableEq

/-- Lines 598–605: derive `showAvatar` by comparing each entry's message type
with the previous entry's (the first entry always shows the avatar). -/
def avatarPass (arr : List EntryData) : List ViewEntry :=
  arr.enum.map (fun p =>
    let (i, d) := p
    { message := d.message
      toolCalls := d.toolCalls
      subagentToolCalls := d.subagentToolCalls
      showAvatar :=
        if i = 0 then true
        else
          match arr[i-1]? with
          | some prev => decide (d.message.type ≠ prev.message.type)
          | none => true })

/-- `processedMessages` (ChatInterface.tsx lines 126–606): the full
reconciliation — first pass over AI messages, second pass over ToolMessages,
third pass over human messages, order reconstruction, avatar derivation. -/
def processedMessages (rnd : Nat → String) (bm : List (String × Bundle))
    (msgs : List Message) : List ViewEntry :=
  let s1 := msgs.foldl (pass1Step rnd) {}
  let s2 := msgs.foldl (pass2Step rnd bm) s1
  let s3 := msgs.foldl pass3Step s2
  avatarPass (orderPass msgs s3.messageMap)

/-- `subAgentToolCalls` (page.tsx lines 43–66): the selected sub-agent's
isolated feed — across all entries, the sub-agent calls whose
`parentToolCallId` equals the selected delegating invocation id. -/
def subAgentToolCalls (selId : String) (entries : List ViewEntry) : List ToolCall :=
  entries.foldl (fun acc e =>
    if e.subagentToolCalls ≠ [] then
      acc ++ e.subagentToolCalls.filter (fun tc => tc.parentToolCallId = some selId)
    else acc) []

/-- A parsed outline section; absent JSON fields are `none`. -/
structure RawSection where
  id : Option String := none
  title : Option String := none
  description : Option String := none
  order : Option Int := none
deriving Repr, DecidableEq

/-- A parsed outline payload; fields other than `sections` are opaque. -/
structure RawOutline where
  sections : Option (List RawSection) := none
  metadata : Option String := none
deriving Repr, DecidableEq

/-- The section filter of `parseOutlineJSON` (lines 121–123):
`section.id && section.title && section.description !== undefined &&
section.order !== undefined` — id and title must be present AND non-empty
(JS truthiness), description and order merely present. -/
def sectionValid (s : RawSection) : Bool :=
  (truthy s.id).isSome && (truthy s.title).isSome && s.description.isSome && s.order.isSome

/-- The validation stage of `parseOutlineJSON` (lines 112–139), applied to
the already-parsed payload (string cleaning and `JSON.parse` are not
modelled): reject a payload without a `sections` array, drop invalid
sections individually, and fail only when no valid section remains. -/
def parseOutlineJSON (o : RawOutline) : Option RawOutline :=
  match o.sections with
  | none => none
  | some secs =>
    let valid := secs.filter sectionValid
    if valid = [] then none
    else some { o with sections := some valid }

/-! Definitions following the spec's words, used to compare claims against
the source-derived definitions above. -/

/-- Claim C6's reading of the extractor: use the first non-empty source in
the priority order (sub-agent field, generic structured field, legacy field
with empty names filtered, tool-use blocks), never merging two sources. -/
def specFirstNonEmptySource (m : Message) : List RawToolCall :=
  if (m.kw_subagent_tool_calls).getD [] ≠ [] then (m.kw_subagent_tool_calls).getD []
  else if (m.kw_tool_calls).getD [] ≠ [] then (m.kw_tool_calls).getD []
  else if ((m.tool_calls).getD []).filter (fun tc => tc.name ≠ some "") ≠ [] then
    ((m.tool_calls).getD []).filter (fun tc => tc.name ≠ some "")
  else
    match m.content with
    | .blocks bs => bs.filter (fun b => b.ty = some "tool_use")
    | .text _ => []

/-- Claim C7's reading of the name fallback: the first *defined* value of
{explicit name, nested function name, block type}, else `"unknown"`. -/
def specC7Name (tc : RawToolCall) : String :=
  ((tc.name).orElse (fun _ => (tc.funcName).orElse (fun _ => tc.ty))).getD "unknown"

/-- Claim C9's reading of section validity: all four required fields are
present. -/
def specSectionHasAllFields (s : RawSection) : Bool :=
  s.id.isSome && s.title.isSome && s.description.isSome && s.order.isSome

end Janis

-- Concrete fixtures used by counterexamples and witnesses.
namespace Janis
def rnd0 : Nat → String := fun n => toString n
def mHello : Message := { id := "h1", type := .human, content := .text "hello" }
def mAi : Message := { id := "a1", type := .ai, content := .text "hi" }
end Janis

namespace Janis
-- C6: a message carrying both the sub-agent field and a legacy tool_calls field
def c6sub : RawToolCall := { id := some "s1", name := some "sub" }
def c6main : RawToolCall := { id := some "m1", name := some "mn" }
def m6 : Message :=
  { id := "a6", type := .ai, kw_subagent_tool_calls := some [c6sub],
    tool_calls := some [c6main] }

-- C7: a raw call carrying both a nested function name and an explicit name
def tc7 : RawToolCall := { funcName := some "f", name := some "n" }

-- C9: an outline whose sections all have every field present, but empty id/title
def o9 : RawOutline :=
  { sections := some [
      { id := some "", title := some "t", description := some "d", order := some 1 },
      { id := some "s", title := some "", description := some "d", order := some 2 } ] }

-- C1: a message whose legacy tool_calls array repeats the same provider id
def cdup : RawToolCall := { id := some "a", name := some "t" }
def m1dup : Message := { id := "x1", type := .ai, kw_tool_calls := some [cdup, cdup] }

-- C3: a call without a provider id draws its placeholder from the random stream
def rnd1 : Nat → String := fun _ => "R"
def mNoId : Message := { id := "x3", type := .ai, kw_tool_calls := some [{ name := some "t" }] }

-- spec scenario: 3 sub-agent calls inline + bundle re-delivery: still 3
def s1 : RawToolCall := { id := some "s1", name := some "q1" }
def s2 : RawToolCall := { id := some "s2", name := some "q2" }
def s3 : RawToolCall := { id := some "s3", name := some "q3" }
def mA : Message :=
  { id := "A", type := .ai,
    kw_tool_calls := some [{ id := some "t1", name := some "task" }] }
def mS : Message :=
  { id := "S", type := .ai,
    subagent_source := some { subagent_type := "lit", tool_call_id := "t1" },
    kw_subagent_tool_calls := some [s1, s2, s3] }
def mT : Message := { id := "T", type := .tool, tool_call_id := some "t1", content := .text "done" }
def bm1 : List (String × Bundle) := [("t1", { tool_calls := [s1, s2, s3] })]
end Janis

namespace Janis

/-! Theorems: claims C5, C6, C7, C9. -/

theorem subAgent_foldl_general (selId : String) (entries : List ViewEntry) (acc : List ToolCall) :
    entries.foldl (fun acc e =>
      if e.subagentToolCalls ≠ [] then
        acc ++ e.subagentToolCalls.filter (fun tc => tc.parentToolCallId = some selId)
      else acc) acc
    = acc ++ (entries.bind (·.subagentToolCalls)).filter
        (fun tc => tc.parentToolCallId = some selId) := by
  induction entries generalizing acc with
  | nil => simp
  | cons e es ih =>
    rw [List.foldl_cons, ih]
    by_cases h : e.subagentToolCalls = []
    · simp [h]
    · simp [h, List.filter_append]

/-- C5: the selected sub-agent's isolated feed contains exactly the
sub-agent tool calls whose `parentInvocationId` equals the selected
delegating invocation id, drawn from all entries; every call in the feed
carries that parent id, so calls of a same-named sub-agent with a different
invocation id never appear. -/
theorem C5_subagent_isolation (selId : String) (entries : List ViewEntry) :
    subAgentToolCalls selId entries =
      (entries.bind (·.subagentToolCalls)).filter
        (fun tc => tc.parentToolCallId = some selId) ∧
    ∀ tc ∈ subAgentToolCalls selId entries, tc.parentToolCallId = some selId := by
  have h := subAgent_foldl_general selId entries []
  have heq : subAgentToolCalls selId entries =
      (entries.bind (·.subagentToolCalls)).filter
        (fun tc => tc.parentToolCallId = some selId) := by
    simpa [subAgentToolCalls] using h
  refine ⟨heq, ?_⟩
  intro tc htc
  rw [heq] at htc
  have := List.of_mem_filter htc
  simpa using this

/-- C6 (amended): the extractor always prepends the sub-agent tool-calls
field when present, and independently draws from exactly one of the three
remaining sources, chosen by field presence. -/
theorem C6_extractor_sources (m : Message) :
    toolCallsInMessage m = (m.kw_subagent_tool_calls).getD [] ++ mainSourceCalls m ∧
    ((∃ l, m.kw_tool_calls = some l ∧ mainSourceCalls m = l) ∨
     (m.kw_tool_calls = none ∧ ∃ l, m.tool_calls = some l ∧
        mainSourceCalls m = l.filter (fun tc => tc.name ≠ some "")) ∨
     (m.kw_tool_calls = none ∧ m.tool_calls = none ∧ ∃ bs, m.content = .blocks bs ∧
        mainSourceCalls m = bs.filter (fun b => b.ty = some "tool_use")) ∨
     (m.kw_tool_calls = none ∧ m.tool_calls = none ∧ ∃ s, m.content = .text s ∧
        mainSourceCalls m = [])) := by
  refine ⟨rfl, ?_⟩
  rcases hkw : m.kw_tool_calls with _ | l
  · rcases htc : m.tool_calls with _ | l
    · rcases hc : m.content with s | bs
      · exact Or.inr (Or.inr (Or.inr ⟨rfl, rfl, s, rfl, by simp [mainSourceCalls, hkw, htc, hc]⟩))
      · exact Or.inr (Or.inr (Or.inl ⟨rfl, rfl, bs, rfl, by simp [mainSourceCalls, hkw, htc, hc]⟩))
    · exact Or.inr (Or.inl ⟨rfl, l, rfl, by simp [mainSourceCalls, hkw, htc]⟩)
  · exact Or.inl ⟨l, rfl, by simp [mainSourceCalls, hkw]⟩

/-- C6 counterexample: a message carrying both the sub-agent tool-calls
field and the legacy `tool_calls` field yields calls from both sources,
contradicting "uses exactly one of the possible encodings — the first
non-empty source in the priority order". -/
theorem C6_counterexample : toolCallsInMessage m6 ≠ specFirstNonEmptySource m6 := by decide

theorem firstTruthy_triple (a b c : Option String) (d : String) :
    firstTruthy [a, b, c] d =
      (match truthy a, truthy b, truthy c with
       | some s, _, _ => s
       | none, some s, _ => s
       | none, none, some s => s
       | none, none, none => d) := by
  unfold firstTruthy
  rcases ha : truthy a with _ | s₁ <;> rcases hb : truthy b with _ | s₂ <;>
    rcases hc : truthy c with _ | s₃ <;> simp [List.filterMap_cons, ha, hb, hc]

/-- C7 (amended): for every extracted call, `toolName` is the first truthy
value of {nested function name, explicit name, block type}, else
`"unknown"`; `arguments` is the first truthy value of {nested function
arguments, explicit args, block input}, else the empty object; and
`invocationId` is the provider id when truthy, else a fresh placeholder. -/
theorem C7_normalization (rnd : Nat → String) (m : Message) (src : Option SubagentSource)
    (ctr : Nat) (tc : RawToolCall) :
    ((normalizeCall rnd m src ctr tc).1.name =
      some (match truthy tc.funcName, truthy tc.name, truthy tc.ty with
            | some s, _, _ => s
            | none, some s, _ => s
            | none, none, some s => s
            | none, none, none => "unknown")) ∧
    ((normalizeCall rnd m src ctr tc).1.args =
      some (match truthy tc.funcArgs, truthy tc.args, truthy tc.input with
            | some s, _, _ => s
            | none, some s, _ => s
            | none, none, some s => s
            | none, none, none => "\x7b\x7d")) ∧
    ((normalizeCall rnd m src ctr tc).1.id =
      match truthy tc.id with
      | some s => s
      | none => "tool-" ++ rnd ctr) := by
  refine ⟨?_, ?_, ?_⟩
  · rw [show (normalizeCall rnd m src ctr tc).1.name
        = some (firstTruthy [tc.funcName, tc.name, tc.ty] "unknown") from ?_]
    · rw [firstTruthy_triple]
    · unfold normalizeCall
      rcases truthy tc.id with _ | s <;> rfl
  · rw [show (normalizeCall rnd m src ctr tc).1.args
        = some (firstTruthy [tc.funcArgs, tc.args, tc.input] "\x7b\x7d") from ?_]
    · rw [firstTruthy_triple]
    · unfold normalizeCall
      rcases truthy tc.id with _ | s <;> rfl
  · unfold normalizeCall
    rcases h : truthy tc.id with _ | s <;> simp [h]

/-- C7 counterexample: a call carrying both a nested function name and an
explicit name is normalized to the *function* name, while the claim's
priority order (explicit name first) prescribes the explicit name. -/
theorem C7_counterexample :
    (normalizeCall rnd0 mAi none 0 tc7).1.name ≠ some (specC7Name tc7) := by decide

/-- C9 (amended): given a parsed payload with a sections array, a section is
kept iff its id and title are present and non-empty and its description and
order fields are present; the outline is absent iff no such section
remains. -/
theorem C9_outline_validation (o : RawOutline) (secs : List RawSection)
    (h : o.sections = some secs) :
    parseOutlineJSON o =
      (if secs.filter sectionValid = [] then none
       else some { o with sections := some (secs.filter sectionValid) }) := by
  simp [parseOutlineJSON, h]

theorem C9_outline_validation_witness :
    parseOutlineJSON { sections := some [⟨some "s", some "t", some "d", some 1⟩] } =
      some { sections := some [⟨some "s", some "t", some "d", some 1⟩] } := by
  rw [C9_outline_validation
        { sections := some [⟨some "s", some "t", some "d", some 1⟩] }
        [⟨some "s", some "t", some "d", some 1⟩] rfl]
  decide

/-- C9 counterexample: a payload whose sections all have every required
field present, but with an empty id (resp. empty title), is rejected
outright — the claim predicts those sections are valid and kept. -/
theorem C9_counterexample :
    parseOutlineJSON o9 = none ∧ ((o9.sections).getD []).filter specSectionHasAllFields ≠ [] := by
  constructor <;> decide

end Janis

namespace Janis

def vSub1 : ToolCall :=
  { id := "s1", name := some "lit", uniqueId := "u1", source := "ai_message",
    messageId := "S", parentToolCallId := some "t1" }

def vSub2 : ToolCall :=
  { id := "s9", name := some "lit", uniqueId := "u2", source := "ai_message",
    messageId := "S2", parentToolCallId := some "t2" }

def vEntry : ViewEntry :=
  { message := mAi, subagentToolCalls := [vSub1, vSub2], showAvatar := true }

theorem C5_subagent_isolation_witness : vSub1.parentToolCallId = some "t1" :=
  (C5_subagent_isolation "t1" [vEntry]).2 vSub1 (by decide)

end Janis

namespace Janis

theorem avatarPass_showAvatar_iff (arr : List EntryData) (i : Nat)
    (h : i < (avatarPass arr).length) :
    (((avatarPass arr).get ⟨i, h⟩).showAvatar = true ↔
      (i = 0 ∨ ((avatarPass arr).get ⟨i, h⟩).message.type ≠
        ((avatarPass arr).get ⟨i-1, Nat.lt_of_le_of_lt (Nat.sub_le i 1) h⟩).message.type)) := by
  have hi : i < arr.length := by simpa [avatarPass] using h
  by_cases h0 : i = 0
  · subst h0
    simp [avatarPass, List.get_eq_getElem, List.getElem_map, List.getElem_enum]
  · have hi1 : i - 1 < arr.length := Nat.lt_of_le_of_lt (Nat.sub_le i 1) hi
    have hsome : arr[i-1]? = some (arr.get ⟨i-1, hi1⟩) := by
      simp [List.getElem?_eq_getElem, List.get_eq_getElem]
    simp [avatarPass, List.get_eq_getElem, List.getElem_map, List.getElem_enum, h0, hsome,
      decide_eq_true_iff]

/-- C8: in the reconciled output, an entry's `showAvatar` is true iff it is
the first entry or its message role differs from the immediately preceding
entry's role; in particular two consecutive same-role entries give the
second `showAvatar = false`. -/
theorem C8_showAvatar (rnd : Nat → String) (bm : List (String × Bundle))
    (msgs : List Message) (i : Nat) (h : i < (processedMessages rnd bm msgs).length) :
    (((processedMessages rnd bm msgs).get ⟨i, h⟩).showAvatar = true ↔
      (i = 0 ∨ ((processedMessages rnd bm msgs).get ⟨i, h⟩).message.type ≠
        ((processedMessages rnd bm msgs).get
          ⟨i-1, Nat.lt_of_le_of_lt (Nat.sub_le i 1) h⟩).message.type)) :=
  avatarPass_showAvatar_iff _ i h

theorem C8_showAvatar_witness :
    (((processedMessages rnd0 [] [mHello, mAi]).get ⟨1, by decide⟩).showAvatar = true ↔
      (1 = 0 ∨ ((processedMessages rnd0 [] [mHello, mAi]).get ⟨1, by decide⟩).message.type ≠
        ((processedMessages rnd0 [] [mHello, mAi]).get
          ⟨0, by decide⟩).message.type)) := by
  have := C8_showAvatar rnd0 [] [mHello, mAi] 1 (by decide)
  simpa using this

end Janis

namespace Janis

/-! Structural lemmas about the state-machine helpers. -/

theorem foldl_preserve {α β : Type} (P : α → Prop) (f : α → β → α)
    (h : ∀ s m, P s → P (f s m)) : ∀ (l : List β) (s : α), P s → P (l.foldl f s) := by
  intro l
  induction l with
  | nil => intro s hs; exact hs
  | cons m ms ih => intro s hs; exact ih _ (h s m hs)

theorem mem_mapSet (map : List (String × EntryData)) (k : String) (v : EntryData)
    (p : String × EntryData) (hp : p ∈ mapSet map k v) : p ∈ map ∨ p = (k, v) := by
  unfold mapSet at hp
  split at hp
  · rcases List.mem_map.1 hp with ⟨q, hq, he⟩
    by_cases h : q.1 = k
    · right
      simp [h] at he
      exact he.symm
    · left
      simp [h] at he
      exact he ▸ hq
  · rcases List.mem_append.1 hp with h | h
    · exact Or.inl h
    · right
      simpa using h

theorem mem_updateFirst {α : Type} (p : α → Bool) (f : α → α) (l : List α) (x : α)
    (hx : x ∈ updateFirst p f l) : x ∈ l ∨ ∃ y ∈ l, x = f y := by
  induction l with
  | nil => simp [updateFirst] at hx
  | cons a as ih =>
    unfold updateFirst at hx
    split at hx
    · rcases List.mem_cons.1 hx with h | hx
      · exact Or.inr ⟨a, List.mem_cons_self a as, h⟩
      · exact Or.inl (List.mem_cons_of_mem a hx)
    · rcases List.mem_cons.1 hx with h | hx
      · exact Or.inl (h ▸ List.mem_cons_self a as)
      · rcases ih hx with h | ⟨y, hy, he⟩
        · exact Or.inl (List.mem_cons_of_mem a h)
        · exact Or.inr ⟨y, List.mem_cons_of_mem a hy, he⟩

theorem splitAtFirst_eq {α : Type} (p : α → Bool) (l : List α) (pre : List α) (x : α)
    (post : List α) (h : splitAtFirst p l = some (pre, x, post)) : l = pre ++ x :: post := by
  induction l generalizing pre with
  | nil => simp [splitAtFirst] at h
  | cons a as ih =>
    unfold splitAtFirst at h
    split at h
    · simp at h
      obtain ⟨h1, h2, h3⟩ := h
      subst h1; subst h2; subst h3
      rfl
    · revert h
      split
      · intro h
        simp at h
        obtain ⟨h1, h2, h3⟩ := h
        subst h1; subst h2; subst h3
        rename_i pre' y post' hsp
        simpa using ih pre' hsp
      · intro h
        simp at h

theorem updateFirstEntrySub_shape (res tcid : String) (map : List (String × EntryData)) :
    updateFirstEntrySub res tcid map = map ∨
    ∃ pre k d post, map = pre ++ (k, d) :: post ∧
      updateFirstEntrySub res tcid map =
        pre ++ (k, { d with
          subagentToolCalls :=
            updateFirst (fun tc => tc.id = tcid) (completeCall res) d.subagentToolCalls }) :: post := by
  induction map with
  | nil => exact Or.inl rfl
  | cons q qs ih =>
    obtain ⟨k, d⟩ := q
    unfold updateFirstEntrySub
    split
    · exact Or.inr ⟨[], k, d, qs, rfl, rfl⟩
    · rcases ih with h | ⟨pre, k', d', post, h1, h2⟩
      · exact Or.inl (by rw [h])
      · exact Or.inr ⟨(k, d) :: pre, k', d', post, by simp [h1], by simp [h2]⟩

theorem stateMapAdd_acc (rnd : Nat → String) (tcid mId : String)
    (expTy subTy : Option String)
    (st : List ToolCall × List String × List String × List String × Nat)
    (tc : RawToolCall) :
    ∃ e, (stateMapAdd rnd tcid mId expTy subTy st tc).1 = st.1 ++ e := by
  obtain ⟨acc, g, a, exIds, ctr⟩ := st
  unfold stateMapAdd
  dsimp only
  split
  · exact ⟨[], by simp⟩
  · exact ⟨[_], rfl⟩

theorem stateMapAdd_foldl_acc (rnd : Nat → String) (tcid mId : String)
    (expTy subTy : Option String) (l : List RawToolCall)
    (st : List ToolCall × List String × List String × List String × Nat) :
    ∃ ext, (l.foldl (stateMapAdd rnd tcid mId expTy subTy) st).1 = st.1 ++ ext := by
  induction l generalizing st with
  | nil => exact ⟨[], by simp⟩
  | cons tc rest ih =>
    rw [List.foldl_cons]
    obtain ⟨e1, h1⟩ := stateMapAdd_acc rnd tcid mId expTy subTy st tc
    obtain ⟨e2, h2⟩ := ih (stateMapAdd rnd tcid mId expTy subTy st tc)
    exact ⟨e1 ++ e2, by rw [h2, h1, List.append_assoc]⟩

theorem bundleMerge_acc (rnd : Nat → String) (bm : List (String × Bundle)) (m : Message)
    (tcid : String) (skip : Bool) (subCalls : List ToolCall) (g1 a1 : List String)
    (ctr : Nat) :
    ∃ ext, (bundleMerge rnd bm m tcid skip subCalls g1 a1 ctr).1 = subCalls ++ ext := by
  unfold bundleMerge
  split
  · exact ⟨[], by simp⟩
  · split
    · split
      · dsimp only
        split
        · dsimp only
          exact stateMapAdd_foldl_acc rnd tcid m.id _ _ _ (subCalls, g1, a1, [], ctr)
        · exact ⟨[], by simp⟩
      · exact ⟨[], by simp⟩
    · exact ⟨[], by simp⟩

/-- Shape of `mainResultPass`: either no entry owns the answered call and
the state is unchanged, or exactly the first owning entry is rewritten —
its message kept, its main calls updated by completing the answered one,
its sub-agent list only extended. -/
theorem mainResultPass_shape (rnd : Nat → String) (bm : List (String × Bundle))
    (m : Message) (tcid : String) (s : RecState) :
    (mainResultPass rnd bm m tcid s).messageMap = s.messageMap ∨
    ∃ pre k d post d', s.messageMap = pre ++ (k, d) :: post ∧
      (mainResultPass rnd bm m tcid s).messageMap = pre ++ (k, d') :: post ∧
      d'.message = d.message ∧
      d'.toolCalls =
        updateFirst (fun tc => tc.id = tcid)
          (completeCall (extractStringFromMessageContent m)) d.toolCalls ∧
      ∃ ext, d'.subagentToolCalls = d.subagentToolCalls ++ ext := by
  unfold mainResultPass
  rcases hsp : splitAtFirst (fun p => p.2.toolCalls.any (fun tc => tc.id = tcid)) s.messageMap
    with _ | ⟨pre, ⟨k, d⟩, post⟩
  · rw [hsp]
    exact Or.inl rfl
  · have hmap := splitAtFirst_eq _ _ _ _ _ hsp
    right
    rw [hsp]
    dsimp only
    refine ⟨pre, k, d, post, _, hmap, rfl, rfl, rfl, ?_⟩
    exact bundleMerge_acc rnd bm m tcid _ _ _ _ s.ctr

end Janis

namespace Janis

/-! Membership lemmas leading to C10. -/

theorem pass1Step_map_shape (rnd : Nat → String) (s : RecState) (m : Message) :
    (pass1Step rnd s m).messageMap = s.messageMap ∨
    (m.type = MsgType.ai ∧
      ∃ v : EntryData, v.message = m ∧
        (pass1Step rnd s m).messageMap = mapSet s.messageMap m.id v) := by
  unfold pass1Step
  rcases hty : m.type with _ | _ | _
  · dsimp only
    split
    · split
      · split
        · exact Or.inr ⟨rfl, _, rfl, rfl⟩
        · exact Or.inr ⟨rfl, _, rfl, rfl⟩
      · split
        · exact Or.inr ⟨rfl, _, rfl, rfl⟩
        · exact Or.inr ⟨rfl, _, rfl, rfl⟩
    · exact Or.inr ⟨rfl, _, rfl, rfl⟩
  · exact Or.inl rfl
  · exact Or.inl rfl

theorem pass3Step_map_shape (s : RecState) (m : Message) :
    (pass3Step s m).messageMap = s.messageMap ∨
    (m.type = MsgType.human ∧
      (pass3Step s m).messageMap = s.messageMap ++ [(m.id, ⟨m, [], []⟩)]) := by
  unfold pass3Step
  rcases hty : m.type with _ | _ | _
  · exact Or.inl rfl
  · dsimp only
    split
    · exact Or.inl rfl
    · exact Or.inr ⟨rfl, rfl⟩
  · exact Or.inl rfl

theorem pass2Step_messages (rnd : Nat → String) (bm : List (String × Bundle))
    (s : RecState) (m : Message) (p : String × EntryData)
    (hp : p ∈ (pass2Step rnd bm s m).messageMap) :
    ∃ q ∈ s.messageMap, p.1 = q.1 ∧ p.2.message = q.2.message := by
  unfold pass2Step at hp
  rcases hty : m.type with _ | _ | _ <;> rw [hty] at hp
  · exact ⟨p, hp, rfl, rfl⟩
  · exact ⟨p, hp, rfl, rfl⟩
  · rcases htc : truthy m.tool_call_id with _ | tcid <;> rw [htc] at hp
    · exact ⟨p, hp, rfl, rfl⟩
    · dsimp only at hp
      split at hp
      · rcases updateFirstEntrySub_shape (extractStringFromMessageContent m) tcid
          s.messageMap with hsh | ⟨pre, k, d, post, h1, h2⟩
        · rw [hsh] at hp
          exact ⟨p, hp, rfl, rfl⟩
        · rw [h2] at hp
          rcases List.mem_append.1 hp with h | h
          · exact ⟨p, h1 ▸ List.mem_append_left _ h, rfl, rfl⟩
          · rcases List.mem_cons.1 h with h' | h'
            · refine ⟨(k, d), h1 ▸ List.mem_append_right _ (List.mem_cons_self _ _), ?_, ?_⟩
              · rw [h']
              · rw [h']
            · exact ⟨p, h1 ▸ List.mem_append_right _ (List.mem_cons_of_mem _ h'), rfl, rfl⟩
      · rcases mainResultPass_shape rnd bm m tcid s with hsh | ⟨pre, k, d, post, d', h1, h2, h3, _, _⟩
        · rw [hsh] at hp
          exact ⟨p, hp, rfl, rfl⟩
        · rw [h2] at hp
          rcases List.mem_append.1 hp with h | h
          · exact ⟨p, h1 ▸ List.mem_append_left _ h, rfl, rfl⟩
          · rcases List.mem_cons.1 h with h' | h'
            · refine ⟨(k, d), h1 ▸ List.mem_append_right _ (List.mem_cons_self _ _), ?_, ?_⟩
              · rw [h']
              · rw [h']
                exact h3
            · exact ⟨p, h1 ▸ List.mem_append_right _ (List.mem_cons_of_mem _ h'), rfl, rfl⟩

theorem mapGet_mem (map : List (String × EntryData)) (k : String) (v : EntryData)
    (h : mapGet map k = some v) : (k, v) ∈ map := by
  unfold mapGet at h
  rcases hf : List.find? (fun p => p.1 = k) map with _ | q
  · rw [hf] at h; simp at h
  · rw [hf] at h
    simp only [Option.map] at h
    have hq := List.find?_mem hf
    have hk : q.1 = k := by simpa using List.find?_some hf
    have : (k, v) = q := by
      obtain ⟨q1, q2⟩ := q
      simp only [Option.some.injEq] at h
      simp only at hk
      simp [hk, h]
    rw [this]
    exact hq

theorem orderPass_mem (msgs : List Message) (map : List (String × EntryData))
    (d : EntryData) (hd : d ∈ orderPass msgs map) : ∃ p ∈ map, d = p.2 := by
  unfold orderPass at hd
  rcases List.mem_append.1 hd with h | h
  · have hfold :
        ∀ (l : List Message) (st : List EntryData × List String),
          (∀ e ∈ st.1, ∃ p ∈ map, e = p.2) →
          ∀ e ∈ (l.foldl (orderStep map) st).1, ∃ p ∈ map, e = p.2 := by
      intro l
      induction l with
      | nil => intro st hst e he; exact hst e he
      | cons m ms ih =>
        intro st hst e he
        refine ih (orderStep map st m) ?_ e he
        intro e' he'
        unfold orderStep at he'
        rcases hmg : mapGet map m.id with _ | v <;> rw [hmg] at he'
        · exact hst e' he'
        · dsimp only at he'
          split at he'
          · exact hst e' he'
          · rcases List.mem_append.1 he' with h' | h'
            · exact hst e' h'
            · exact ⟨(m.id, v), mapGet_mem map m.id v hmg, List.mem_singleton.1 h'⟩
    exact hfold msgs ([], []) (by intro e he; simp at he) d h
  · rcases List.mem_map.1 h with ⟨q, hq, rfl⟩
    exact ⟨q, List.mem_of_mem_filter hq, rfl⟩

theorem avatarPass_mem (arr : List EntryData) (e : ViewEntry) (he : e ∈ avatarPass arr) :
    ∃ d ∈ arr, e.message = d.message ∧ e.toolCalls = d.toolCalls ∧
      e.subagentToolCalls = d.subagentToolCalls := by
  unfold avatarPass at he
  rcases List.mem_map.1 he with ⟨⟨i, d⟩, hmem, rfl⟩
  refine ⟨d, ?_, rfl, rfl, rfl⟩
  have h := List.mem_enum_iff_get?.1 hmem
  exact List.get?_mem h

end Janis

namespace Janis

/-- Every map entry's message is an assistant or human message. -/
def entriesOk (map : List (String × EntryData)) : Prop :=
  ∀ p ∈ map, p.2.message.type = MsgType.ai ∨ p.2.message.type = MsgType.human

theorem entriesOk_pass1 (rnd : Nat → String) (s : RecState) (m : Message)
    (h : entriesOk s.messageMap) : entriesOk (pass1Step rnd s m).messageMap := by
  intro p hp
  rcases pass1Step_map_shape rnd s m with hsh | ⟨hty, v, hv, hsh⟩
  · rw [hsh] at hp
    exact h p hp
  · rw [hsh] at hp
    rcases mem_mapSet _ _ _ _ hp with h' | h'
    · exact h p h'
    · left
      rw [h']
      simp [hv, hty]

theorem entriesOk_pass2 (rnd : Nat → String) (bm : List (String × Bundle))
    (s : RecState) (m : Message) (h : entriesOk s.messageMap) :
    entriesOk (pass2Step rnd bm s m).messageMap := by
  intro p hp
  obtain ⟨q, hq, _, hmsg⟩ := pass2Step_messages rnd bm s m p hp
  rw [hmsg]
  exact h q hq

theorem entriesOk_pass3 (s : RecState) (m : Message) (h : entriesOk s.messageMap) :
    entriesOk (pass3Step s m).messageMap := by
  intro p hp
  rcases pass3Step_map_shape s m with hsh | ⟨hty, hsh⟩
  · rw [hsh] at hp
    exact h p hp
  · rw [hsh] at hp
    rcases List.mem_append.1 hp with h' | h'
    · exact h p h'
    · right
      rcases List.mem_singleton.1 h' with rfl
      simpa using hty

/-- C10: every entry of the reconciled output corresponds to an assistant or
human message; a tool-result message never produces an output entry of its
own. -/
theorem C10_entries_ai_or_human (rnd : Nat → String) (bm : List (String × Bundle))
    (msgs : List Message) (e : ViewEntry) (he : e ∈ processedMessages rnd bm msgs) :
    e.message.type = MsgType.ai ∨ e.message.type = MsgType.human := by
  have h1 : entriesOk (msgs.foldl (pass1Step rnd) {} : RecState).messageMap :=
    foldl_preserve (fun s => entriesOk s.messageMap) (pass1Step rnd)
      (fun s m hs => entriesOk_pass1 rnd s m hs) msgs {}
      (by intro p hp; simp [RecState] at hp)
  have h2 := foldl_preserve (fun s => entriesOk s.messageMap) (pass2Step rnd bm)
      (fun s m hs => entriesOk_pass2 rnd bm s m hs) msgs _ h1
  have h3 := foldl_preserve (fun s => entriesOk s.messageMap) pass3Step
      (fun s m hs => entriesOk_pass3 s m hs) msgs _ h2
  unfold processedMessages at he
  obtain ⟨d, hd, hmsg, _, _⟩ := avatarPass_mem _ e he
  obtain ⟨p, hp, rfl⟩ := orderPass_mem msgs _ d hd
  rw [hmsg]
  exact h3 p hp

def vHello : ViewEntry := { message := mHello, showAvatar := true }

theorem C10_entries_ai_or_human_witness :
    vHello.message.type = MsgType.ai ∨ vHello.message.type = MsgType.human :=
  C10_entries_ai_or_human rnd0 [] [mHello] vHello (by decide)

end Janis

namespace Janis

/-! Status monotonicity (C4). -/

/-- Some call in the list with this unique id is completed. -/
def listCompl (l : List ToolCall) (u : String) : Bool :=
  l.any (fun tc => decide (tc.uniqueId = u ∧ tc.status = some "completed"))

/-- The entry keyed `k` holds a completed call with unique id `u`. -/
def mapCompl (map : List (String × EntryData)) (k u : String) : Bool :=
  match mapGet map k with
  | some d => listCompl (d.toolCalls ++ d.subagentToolCalls) u
  | none => false

def completedAt (s : RecState) (k u : String) : Bool :=
  mapCompl s.messageMap k u

theorem any_updateFirst {α : Type} (q p : α → Bool) (f : α → α)
    (hf : ∀ x, q x = true → q (f x) = true) (l : List α) (h : l.any q = true) :
    (updateFirst p f l).any q = true := by
  induction l with
  | nil => simp at h
  | cons a as ih =>
    unfold updateFirst
    simp only [List.any_cons, Bool.or_eq_true] at h
    split
    · simp only [List.any_cons, Bool.or_eq_true]
      rcases h with h | h
      · exact Or.inl (hf a h)
      · exact Or.inr h
    · simp only [List.any_cons, Bool.or_eq_true]
      rcases h with h | h
      · exact Or.inl h
      · exact Or.inr (ih h)

theorem listCompl_completeCall (res : String) (tc : ToolCall) (u : String)
    (h : decide (tc.uniqueId = u ∧ tc.status = some "completed") = true) :
    decide ((completeCall res tc).uniqueId = u ∧
            (completeCall res tc).status = some "completed") = true := by
  simp only [decide_eq_true_eq] at h ⊢
  exact ⟨h.1, rfl⟩

theorem mapGet_split_update (pre post : List (String × EntryData)) (k0 k : String)
    (d d' : EntryData) :
    mapGet (pre ++ (k0, d') :: post) k = mapGet (pre ++ (k0, d) :: post) k ∨
    (mapGet (pre ++ (k0, d') :: post) k = some d' ∧
     mapGet (pre ++ (k0, d) :: post) k = some d) := by
  unfold mapGet
  rw [List.find?_append, List.find?_append]
  rcases hf : List.find? (fun p => p.1 = k) pre with _ | q <;> rw [hf]
  · by_cases hk : k0 = k
    · right
      constructor <;> simp [List.find?_cons, hk]
    · left
      simp [List.find?_cons, hk]
  · left
    rfl

theorem mapCompl_split_update (pre post : List (String × EntryData)) (k0 : String)
    (d d' : EntryData) (k u : String)
    (himp : listCompl (d.toolCalls ++ d.subagentToolCalls) u = true →
            listCompl (d'.toolCalls ++ d'.subagentToolCalls) u = true)
    (h : mapCompl (pre ++ (k0, d) :: post) k u = true) :
    mapCompl (pre ++ (k0, d') :: post) k u = true := by
  unfold mapCompl at h ⊢
  rcases mapGet_split_update pre post k0 k d d' with heq | ⟨h1, h2⟩
  · rw [heq]
    exact h
  · rw [h1]
    rw [h2] at h
    exact himp h

theorem completedAt_pass2 (rnd : Nat → String) (bm : List (String × Bundle))
    (s : RecState) (m : Message) (k u : String) (h : completedAt s k u = true) :
    completedAt (pass2Step rnd bm s m) k u = true := by
  unfold completedAt at h ⊢
  unfold pass2Step
  rcases hty : m.type with _ | _ | _
  · exact h
  · exact h
  · dsimp only
    rcases htc : truthy m.tool_call_id with _ | tcid
    · exact h
    · dsimp only
      split
      · rcases updateFirstEntrySub_shape (extractStringFromMessageContent m) tcid
          s.messageMap with hsh | ⟨pre, k0, d, post, h1, h2⟩
        · rw [hsh]
          exact h
        · rw [h2]
          rw [h1] at h
          refine mapCompl_split_update pre post k0 d _ k u ?_ h
          intro hc
          rw [listCompl, List.any_append, Bool.or_eq_true] at hc ⊢
          rcases hc with hc | hc
          · exact Or.inl hc
          · refine Or.inr ?_
            exact any_updateFirst _ _ _ (fun x hx => listCompl_completeCall _ x u hx) _ hc
      · rcases mainResultPass_shape rnd bm m tcid s with hsh | ⟨pre, k0, d, post, d', h1, h2, _, h4, ext, h5⟩
        · rw [hsh]
          exact h
        · rw [h2]
          rw [h1] at h
          refine mapCompl_split_update pre post k0 d d' k u ?_ h
          intro hc
          rw [listCompl, List.any_append, Bool.or_eq_true] at hc ⊢
          rcases hc with hc | hc
          · refine Or.inl ?_
            rw [h4]
            exact any_updateFirst _ _ _ (fun x hx => listCompl_completeCall _ x u hx) _ hc
          · refine Or.inr ?_
            rw [h5, List.any_append, Bool.or_eq_true]
            exact Or.inl hc

theorem mapCompl_append_right (map : List (String × EntryData)) (e : String × EntryData)
    (k u : String) (h : mapCompl map k u = true) :
    mapCompl (map ++ [e]) k u = true := by
  unfold mapCompl mapGet at h ⊢
  rw [List.find?_append]
  rcases hf : List.find? (fun p => p.1 = k) map with _ | q <;> rw [hf] at h ⊢
  · simp at h
  · exact h

theorem completedAt_pass3 (s : RecState) (m : Message) (k u : String)
    (h : completedAt s k u = true) : completedAt (pass3Step s m) k u = true := by
  unfold completedAt at h ⊢
  rcases pass3Step_map_shape s m with hsh | ⟨_, hsh⟩
  · rw [hsh]
    exact h
  · rw [hsh]
    exact mapCompl_append_right s.messageMap _ k u h

/-- C4: once an invocation is completed in the reconciled state, no later
processing step — any remaining tool-result processing (including bundle
re-delivery via the state map) and the human-message pass — reverts it to
pending: the completed record stays completed. -/
theorem C4_status_monotonic (rnd : Nat → String) (bm : List (String × Bundle))
    (ms2 ms3 : List Message) (s : RecState) (k u : String)
    (h : completedAt s k u = true) :
    completedAt (ms3.foldl pass3Step (ms2.foldl (pass2Step rnd bm) s)) k u = true := by
  have h2 := foldl_preserve (fun st => completedAt st k u = true) (pass2Step rnd bm)
    (fun st m hs => completedAt_pass2 rnd bm st m k u hs) ms2 s h
  exact foldl_preserve (fun st => completedAt st k u = true) pass3Step
    (fun st m hs => completedAt_pass3 st m k u hs) ms3 _ h2

def tcW : ToolCall :=
  { id := "t1", status := some "completed", result := some "ok",
    uniqueId := "t1-main-A", source := "ai_message", messageId := "A" }

def sW : RecState :=
  { messageMap := [("A", { message := mA, toolCalls := [tcW] })],
    globalIds := ["t1-main-A", "id:t1"], actualIds := ["t1"] }

theorem C4_status_monotonic_witness :
    completedAt ([mT].foldl pass3Step ([mT].foldl (pass2Step rnd0 bm1) sW)) "A" "t1-main-A"
      = true :=
  C4_status_monotonic rnd0 bm1 [mT] [mT] sW "A" "t1-main-A" (by decide)

end Janis

namespace Janis

/-! Determinism (C3): with provider ids present everywhere, the random
stream is never consulted. -/

def rawHasId (tc : RawToolCall) : Bool := (truthy tc.id).isSome

def msgAllIds (m : Message) : Bool :=
  (toolCallsInMessage m).all rawHasId &&
  ((m.carried_subagent_tool_calls).getD []).all rawHasId

def bmAllIds (bm : List (String × Bundle)) : Bool :=
  bm.all (fun p => p.2.tool_calls.all rawHasId)

theorem normalizeCall_rnd (rnd1 rnd2 : Nat → String) (m : Message)
    (src : Option SubagentSource) (ctr : Nat) (tc : RawToolCall)
    (h : rawHasId tc = true) :
    normalizeCall rnd1 m src ctr tc = normalizeCall rnd2 m src ctr tc := by
  rw [rawHasId] at h
  obtain ⟨s, hs⟩ := Option.isSome_iff_exists.1 h
  unfold normalizeCall
  simp [hs]

theorem normalizeCalls_rnd (rnd1 rnd2 : Nat → String) (m : Message)
    (src : Option SubagentSource) (ctr : Nat) (l : List RawToolCall)
    (h : l.all rawHasId = true) :
    normalizeCalls rnd1 m src ctr l = normalizeCalls rnd2 m src ctr l := by
  induction l generalizing ctr with
  | nil => rfl
  | cons tc rest ih =>
    rw [List.all_cons, Bool.and_eq_true] at h
    unfold normalizeCalls
    dsimp only
    rw [normalizeCall_rnd rnd1 rnd2 m src ctr tc h.1, ih ((normalizeCall rnd2 m src ctr tc).2) h.2]


theorem pass1Step_rnd (rnd1 rnd2 : Nat → String) (s : RecState) (m : Message)
    (h : msgAllIds m = true) : pass1Step rnd1 s m = pass1Step rnd2 s m := by
  rw [msgAllIds, Bool.and_eq_true] at h
  unfold pass1Step
  dsimp only
  rw [normalizeCalls_rnd rnd1 rnd2 m m.subagent_source s.ctr (toolCallsInMessage m) h.1]

theorem stateMapAdd_rnd (rnd1 rnd2 : Nat → String) (tcid mId : String)
    (expTy subTy : Option String)
    (st : List ToolCall × List String × List String × List String × Nat)
    (tc : RawToolCall) (h : rawHasId tc = true) :
    stateMapAdd rnd1 tcid mId expTy subTy st tc =
      stateMapAdd rnd2 tcid mId expTy subTy st tc := by
  obtain ⟨acc, g, a, exIds, ctr⟩ := st
  rw [rawHasId] at h
  obtain ⟨s, hs⟩ := Option.isSome_iff_exists.1 h
  unfold stateMapAdd
  simp [hs]

theorem stateMapAdd_foldl_rnd (rnd1 rnd2 : Nat → String) (tcid mId : String)
    (expTy subTy : Option String) (l : List RawToolCall)
    (st : List ToolCall × List String × List String × List String × Nat)
    (h : l.all rawHasId = true) :
    l.foldl (stateMapAdd rnd1 tcid mId expTy subTy) st =
      l.foldl (stateMapAdd rnd2 tcid mId expTy subTy) st := by
  induction l generalizing st with
  | nil => rfl
  | cons tc rest ih =>
    rw [List.all_cons, Bool.and_eq_true] at h
    rw [List.foldl_cons, List.foldl_cons,
      stateMapAdd_rnd rnd1 rnd2 tcid mId expTy subTy st tc h.1]
    exact ih _ h.2

theorem lookupBundle_mem (bm : List (String × Bundle)) (k : String) (b : Bundle)
    (h : lookupBundle bm k = some b) : ∃ q ∈ bm, q.2 = b := by
  unfold lookupBundle at h
  rcases hf : List.find? (fun p => p.1 = k) bm with _ | q <;> rw [hf] at h
  · simp at h
  · simp at h
    exact ⟨q, List.find?_mem hf, h⟩

theorem resolvedBundle_allIds (bm : List (String × Bundle)) (m : Message) (tcid : String)
    (l : List RawToolCall) (hm : msgAllIds m = true) (hb : bmAllIds bm = true)
    (h : (resolvedBundle bm m tcid).1 = some l) : l.all rawHasId = true := by
  rw [msgAllIds, Bool.and_eq_true] at hm
  unfold resolvedBundle at h
  split at h
  · rcases hlk : lookupBundle bm tcid with _ | sd <;> rw [hlk] at h
    · dsimp only at h
      rw [h] at hm
      simpa using hm.2
    · dsimp only at h
      obtain rfl : sd.tool_calls = l := by simpa using h
      obtain ⟨q, hq, rfl⟩ := lookupBundle_mem bm tcid sd hlk
      rw [bmAllIds, List.all_eq_true] at hb
      exact hb q hq
  · dsimp only at h
    rw [h] at hm
    simpa using hm.2

theorem bundleMerge_rnd (rnd1 rnd2 : Nat → String) (bm : List (String × Bundle))
    (m : Message) (tcid : String) (skip : Bool) (subCalls : List ToolCall)
    (g1 a1 : List String) (ctr : Nat)
    (hm : msgAllIds m = true) (hb : bmAllIds bm = true) :
    bundleMerge rnd1 bm m tcid skip subCalls g1 a1 ctr =
      bundleMerge rnd2 bm m tcid skip subCalls g1 a1 ctr := by
  unfold bundleMerge
  split
  · rfl
  · generalize hres : (resolvedBundle bm m tcid).1 = res
    rcases res with _ | l
    · rfl
    · try dsimp only
      split
      · try dsimp only
        split
        · try dsimp only
          rw [stateMapAdd_foldl_rnd rnd1 rnd2 tcid m.id
              (jsOrO ((lookupBundle bm tcid).bind (fun b => b.subagent_type))
                (resolvedBundle bm m tcid).2)
              ((resolvedBundle bm m tcid).2) l (subCalls, g1, a1, [], ctr)
              (resolvedBundle_allIds bm m tcid l hm hb hres)]
        · rfl
      · rfl

theorem mainResultPass_rnd (rnd1 rnd2 : Nat → String) (bm : List (String × Bundle))
    (m : Message) (tcid : String) (s : RecState)
    (hm : msgAllIds m = true) (hb : bmAllIds bm = true) :
    mainResultPass rnd1 bm m tcid s = mainResultPass rnd2 bm m tcid s := by
  unfold mainResultPass
  rcases hsp : splitAtFirst (fun p => p.2.toolCalls.any (fun tc => tc.id = tcid)) s.messageMap
    with _ | ⟨pre, ⟨k, d⟩, post⟩ <;> rw [hsp]
  dsimp only
  rw [bundleMerge_rnd rnd1 rnd2 bm m tcid _ _ _ _ s.ctr hm hb]

theorem pass2Step_rnd (rnd1 rnd2 : Nat → String) (bm : List (String × Bundle))
    (s : RecState) (m : Message) (hm : msgAllIds m = true) (hb : bmAllIds bm = true) :
    pass2Step rnd1 bm s m = pass2Step rnd2 bm s m := by
  unfold pass2Step
  rcases hty : m.type with _ | _ | _
  · rfl
  · rfl
  · dsimp only
    generalize htc : truthy m.tool_call_id = tco
    rcases tco with _ | tcid
    · rfl
    · dsimp only
      split
      · rfl
      · exact mainResultPass_rnd rnd1 rnd2 bm m tcid s hm hb

theorem foldl_congr_mem {α β : Type} (f g : α → β → α) (l : List β)
    (h : ∀ s m, m ∈ l → f s m = g s m) (s : α) : l.foldl f s = l.foldl g s := by
  induction l generalizing s with
  | nil => rfl
  | cons m ms ih =>
    rw [List.foldl_cons, List.foldl_cons, h s m (List.mem_cons_self m ms)]
    exact ih (fun s' m' hm' => h s' m' (List.mem_cons_of_mem m hm')) _

/-- C3 (amended): when every tool call carries a provider id — in every
message's extracted calls and carried bundle, and in every state-map
bundle — reconciliation never consults the random stream: its output is a
deterministic function of the message buffer and the bundle map alone. -/
theorem C3_deterministic (rnd1 rnd2 : Nat → String) (bm : List (String × Bundle))
    (msgs : List Message) (h1 : msgs.all msgAllIds = true) (h2 : bmAllIds bm = true) :
    processedMessages rnd1 bm msgs = processedMessages rnd2 bm msgs := by
  rw [List.all_eq_true] at h1
  unfold processedMessages
  dsimp only
  rw [foldl_congr_mem (pass1Step rnd1) (pass1Step rnd2) msgs
      (fun s m hm => pass1Step_rnd rnd1 rnd2 s m (h1 m hm))]
  rw [foldl_congr_mem (pass2Step rnd1 bm) (pass2Step rnd2 bm) msgs
      (fun s m hm => pass2Step_rnd rnd1 rnd2 bm s m (h1 m hm) h2)]

theorem C3_deterministic_witness :
    processedMessages rnd0 bm1 [mA, mS, mT] = processedMessages rnd1 bm1 [mA, mS, mT] :=
  C3_deterministic rnd0 rnd1 bm1 [mA, mS, mT] (by decide) (by decide)

/-- C3 counterexample: on a buffer whose one tool call carries no provider
id, two runs of the reconciliation differ (the placeholder id is drawn from
`Math.random()`), so re-running on identical input is not byte-for-byte
idempotent. -/
theorem C3_counterexample :
    processedMessages rnd0 [] [mNoId] ≠ processedMessages rnd1 [] [mNoId] := by decide

end Janis

namespace Janis

/-! Order preservation (C2). -/

/-- Keep the first occurrence of each element. -/
def dedupFirstAux : List String → List String → List String
  | _, [] => []
  | seen, x :: xs =>
    if x ∈ seen then dedupFirstAux seen xs else x :: dedupFirstAux (seen ++ [x]) xs

def dedupFirst (l : List String) : List String := dedupFirstAux [] l

/-- Some assistant or human message in the buffer has this id. -/
def hasEntryMsg (msgs : List Message) (i : String) : Bool :=
  msgs.any (fun m => decide (m.id = i) && decide (m.type ≠ MsgType.tool))

/-- The ids pushed by the order-reconstruction fold. -/
def orderIds (map : List (String × EntryData)) : List String → List String → List String
  | _, [] => []
  | seen, i :: is =>
    if (mapGet map i).isSome ∧ i ∉ seen then i :: orderIds map (seen ++ [i]) is
    else orderIds map seen is

theorem foldl_establish {α β : Type} (Q : α → Prop) (f : α → β → α) (l : List β) (m : β)
    (hm : m ∈ l) (est : ∀ s, Q (f s m)) (pres : ∀ s m', Q s → Q (f s m')) (s : α) :
    Q (l.foldl f s) := by
  induction l generalizing s with
  | nil => cases hm
  | cons b bs ih =>
    rcases List.mem_cons.1 hm with h | hm'
    · rw [List.foldl_cons]
      exact foldl_preserve Q f pres bs _ (h ▸ est s)
    · rw [List.foldl_cons]
      exact ih hm' _

theorem foldl_preserve_mem {α β : Type} (P : α → Prop) (f : α → β → α) (l : List β)
    (h : ∀ s m, m ∈ l → P s → P (f s m)) (s : α) (hs : P s) : P (l.foldl f s) := by
  induction l generalizing s with
  | nil => exact hs
  | cons m ms ih =>
    rw [List.foldl_cons]
    exact ih (fun s' m' hm' => h s' m' (List.mem_cons_of_mem m hm'))
      _ (h s m (List.mem_cons_self m ms) hs)

theorem enumFrom_map_snd {α : Type} (n : Nat) (l : List α) :
    (l.enumFrom n).map Prod.snd = l := by
  induction l generalizing n with
  | nil => rfl
  | cons a as ih => simp [List.enumFrom, ih]

theorem avatarPass_map_message (arr : List EntryData) :
    (avatarPass arr).map (·.message) = arr.map (·.message) := by
  unfold avatarPass
  rw [List.map_map]
  have h1 : ((fun e : ViewEntry => e.message) ∘ (fun p : Nat × EntryData =>
      let (i, d) := p
      ({ message := d.message
         toolCalls := d.toolCalls
         subagentToolCalls := d.subagentToolCalls
         showAvatar :=
           if i = 0 then true
           else
             match arr[i-1]? with
             | some prev => decide (d.message.type ≠ prev.message.type)
             | none => true } : ViewEntry))) = (fun p : Nat × EntryData => p.2.message) := by
    funext p
    rcases p with ⟨i, d⟩
    rfl
  rw [h1]
  have h2 : (fun p : Nat × EntryData => p.2.message) =
      ((fun d : EntryData => d.message) ∘ Prod.snd) := rfl
  rw [h2, ← List.map_map]
  rw [show arr.enum.map Prod.snd = arr from enumFrom_map_snd 0 arr]

end Janis

namespace Janis

theorem orderFold_ids (map : List (String × EntryData))
    (hI1 : ∀ p ∈ map, p.2.message.id = p.1) (l : List Message) :
    ∀ st : List EntryData × List String,
      (l.foldl (orderStep map) st).1.map (·.message.id) =
        st.1.map (·.message.id) ++ orderIds map st.2 (l.map (·.id)) ∧
      (l.foldl (orderStep map) st).2 = st.2 ++ orderIds map st.2 (l.map (·.id)) := by
  induction l with
  | nil => intro st; exact ⟨by simp [orderIds], by simp [orderIds]⟩
  | cons m ms ih =>
    intro st
    rw [List.foldl_cons]
    obtain ⟨ha, hs⟩ := ih (orderStep map st m)
    rw [List.map_cons]
    unfold orderStep at ha hs ⊢
    rcases hmg : mapGet map m.id with _ | d <;> rw [hmg] at ha hs <;> dsimp only at ha hs ⊢
    · have hcond : ¬((mapGet map m.id).isSome ∧ m.id ∉ st.2) := by
        rw [hmg]
        simp
      unfold orderIds
      rw [if_neg hcond]
      exact ⟨ha, hs⟩
    · by_cases hseen : m.id ∈ st.2
      · rw [if_pos hseen] at ha hs ⊢
        have hcond : ¬((mapGet map m.id).isSome ∧ m.id ∉ st.2) := by
          rw [hmg]
          simp [hseen]
        unfold orderIds
        rw [if_neg hcond]
        exact ⟨ha, hs⟩
      · rw [if_neg hseen] at ha hs ⊢
        have hcond : (mapGet map m.id).isSome ∧ m.id ∉ st.2 := by
          rw [hmg]
          exact ⟨rfl, hseen⟩
        unfold orderIds
        rw [if_pos hcond]
        have hid : d.message.id = m.id :=
          hI1 (m.id, d) (mapGet_mem map m.id d hmg)
        constructor
        · rw [ha]
          simp [hid]
        · rw [hs]
          simp

theorem orderIds_eq_dedup_filter (map : List (String × EntryData)) (ids : List String) :
    ∀ seen seen' : List String,
      (∀ j, (mapGet map j).isSome → (j ∈ seen ↔ j ∈ seen')) →
      orderIds map seen ids =
        (dedupFirstAux seen' ids).filter (fun i => (mapGet map i).isSome) := by
  induction ids with
  | nil => intro seen seen' _; simp [orderIds, dedupFirstAux]
  | cons i is ih =>
    intro seen seen' hrel
    unfold orderIds dedupFirstAux
    by_cases hms : (mapGet map i).isSome
    · by_cases hseen : i ∈ seen
      · rw [if_neg (fun hc => hc.2 hseen), if_pos ((hrel i hms).1 hseen)]
        exact ih seen seen' hrel
      · have hseen' : i ∉ seen' := fun h => hseen ((hrel i hms).2 h)
        rw [if_pos ⟨hms, hseen⟩, if_neg hseen']
        rw [List.filter_cons, if_pos hms]
        have hrel' : ∀ j, (mapGet map j).isSome → (j ∈ seen ++ [i] ↔ j ∈ seen' ++ [i]) := by
          intro j hj
          simp only [List.mem_append, List.mem_singleton]
          rw [hrel j hj]
        rw [ih (seen ++ [i]) (seen' ++ [i]) hrel']
    · rw [if_neg (fun hc => hms hc.1)]
      by_cases hseen' : i ∈ seen'
      · rw [if_pos hseen']
        exact ih seen seen' hrel
      · rw [if_neg hseen']
        rw [List.filter_cons, if_neg hms]
        have hrel' : ∀ j, (mapGet map j).isSome → (j ∈ seen ↔ j ∈ seen' ++ [i]) := by
          intro j hj
          simp only [List.mem_append, List.mem_singleton]
          rw [hrel j hj]
          constructor
          · exact Or.inl
          · rintro (h | rfl)
            · exact h
            · exact absurd hj hms
        exact ih seen (seen' ++ [i]) hrel'

theorem mem_orderIds (map : List (String × EntryData)) (k : String) (ids : List String) :
    ∀ seen : List String, (mapGet map k).isSome → k ∈ ids →
      k ∈ seen ∨ k ∈ orderIds map seen ids := by
  induction ids with
  | nil => intro seen _ h; cases h
  | cons i is ih =>
    intro seen hms hk
    unfold orderIds
    by_cases hc : (mapGet map i).isSome ∧ i ∉ seen
    · rw [if_pos hc]
      rcases List.mem_cons.1 hk with h | hk'
      · right
        rw [h]
        exact List.mem_cons_self i _
      · rcases ih (seen ++ [i]) hms hk' with h | h
        · rcases List.mem_append.1 h with h | h
          · exact Or.inl h
          · right
            rw [List.mem_singleton.1 h]
            exact List.mem_cons_self i _
        · right
          exact List.mem_cons_of_mem i h
    · rw [if_neg hc]
      rcases List.mem_cons.1 hk with h | hk'
      · left
        rcases not_and_or.1 hc with h' | h'
        · exact absurd (h ▸ hms) h'
        · rw [h]
          exact not_not.1 h'
      · exact ih seen hms hk'

theorem orderPass_ids (msgs : List Message) (map : List (String × EntryData))
    (hI1 : ∀ p ∈ map, p.2.message.id = p.1)
    (hcover : ∀ p ∈ map, ∃ m ∈ msgs, m.id = p.1) :
    (orderPass msgs map).map (·.message.id) =
      (dedupFirst (msgs.map (·.id))).filter (fun i => (mapGet map i).isSome) := by
  unfold orderPass
  dsimp only
  obtain ⟨ha, hs⟩ := orderFold_ids map hI1 msgs ([], [])
  have hleft : map.filter (fun p => p.1 ∉ (msgs.foldl (orderStep map) ([], [])).2) = [] := by
    rw [List.filter_eq_nil_iff]
    intro p hp
    simp only [decide_not, Bool.not_eq_true', decide_eq_false_iff_not, not_not]
    rw [hs]
    obtain ⟨m, hm, hid⟩ := hcover p hp
    have hpsome : (mapGet map p.1).isSome := by
      unfold mapGet
      generalize hf : List.find? (fun q => q.1 = p.1) map = r
      rcases r with _ | q
      · rw [List.find?_eq_none] at hf
        exact absurd (by simp) (hf p hp)
      · simp
    have hmem : p.1 ∈ msgs.map (·.id) := List.mem_map.2 ⟨m, hm, hid⟩
    rcases mem_orderIds map p.1 (msgs.map (·.id)) [] hpsome hmem with h | h
    · cases h
    · simpa using h
  rw [List.map_append, hleft]
  simp only [List.map_nil, List.append_nil]
  rw [ha]
  simp only [List.map_nil, List.nil_append]
  exact orderIds_eq_dedup_filter map (msgs.map (·.id)) [] [] (by simp)

end Janis

namespace Janis

/-! Map-key lemmas and invariants feeding C2. -/

theorem mapGet_isSome_iff (map : List (String × EntryData)) (k : String) :
    (mapGet map k).isSome = true ↔ k ∈ map.map (·.1) := by
  unfold mapGet
  induction map with
  | nil => simp
  | cons p ps ih =>
    rw [List.find?_cons]
    by_cases hp : p.1 = k
    · simp [hp]
    · have hp' : ¬(k = p.1) := fun h => hp h.symm
      simp only [List.map_cons, List.mem_cons]
      simp [hp, hp', ih]

theorem mapSet_keys (map : List (String × EntryData)) (k : String) (v : EntryData) :
    (mapSet map k v).map (·.1) = map.map (·.1) ∨
    (mapSet map k v).map (·.1) = map.map (·.1) ++ [k] := by
  unfold mapSet
  split
  · left
    rw [List.map_map]
    refine List.map_congr_left ?_
    intro p _
    by_cases hp : p.1 = k
    · simp [hp]
    · simp [hp]
  · right
    simp

theorem keys_pass1 (rnd : Nat → String) (s : RecState) (m : Message) (k : String)
    (h : (mapGet s.messageMap k).isSome = true) :
    (mapGet (pass1Step rnd s m).messageMap k).isSome = true := by
  rcases pass1Step_map_shape rnd s m with hsh | ⟨_, v, _, hsh⟩
  · rw [hsh]
    exact h
  · rw [hsh]
    rw [mapGet_isSome_iff] at h ⊢
    rcases mapSet_keys s.messageMap m.id v with hk | hk
    · rw [hk]
      exact h
    · rw [hk]
      exact List.mem_append_left _ h

theorem pass2Step_keys (rnd : Nat → String) (bm : List (String × Bundle))
    (s : RecState) (m : Message) :
    (pass2Step rnd bm s m).messageMap.map (·.1) = s.messageMap.map (·.1) := by
  unfold pass2Step
  rcases hty : m.type with _ | _ | _
  · rfl
  · rfl
  · dsimp only
    generalize htc : truthy m.tool_call_id = tco
    rcases tco with _ | tcid
    · rfl
    · dsimp only
      split
      · dsimp only
        rcases updateFirstEntrySub_shape (extractStringFromMessageContent m) tcid
          s.messageMap with hsh | ⟨pre, k0, d, post, h1, h2⟩
        · rw [hsh]
        · rw [h2, h1]
          simp
      · rcases mainResultPass_shape rnd bm m tcid s with hsh | ⟨pre, k0, d, post, d', h1, h2, _, _, _⟩
        · rw [hsh]
        · rw [h2, h1]
          simp

theorem keys_pass2 (rnd : Nat → String) (bm : List (String × Bundle))
    (s : RecState) (m : Message) (k : String)
    (h : (mapGet s.messageMap k).isSome = true) :
    (mapGet (pass2Step rnd bm s m).messageMap k).isSome = true := by
  rw [mapGet_isSome_iff] at h ⊢
  rw [pass2Step_keys]
  exact h

theorem keys_pass3 (s : RecState) (m : Message) (k : String)
    (h : (mapGet s.messageMap k).isSome = true) :
    (mapGet (pass3Step s m).messageMap k).isSome = true := by
  rcases pass3Step_map_shape s m with hsh | ⟨_, hsh⟩
  · rw [hsh]
    exact h
  · rw [hsh]
    rw [mapGet_isSome_iff] at h ⊢
    rw [List.map_append]
    exact List.mem_append_left _ h

theorem mapGet_mapSet_self (map : List (String × EntryData)) (k : String) (v : EntryData) :
    (mapGet (mapSet map k v) k).isSome = true := by
  rw [mapGet_isSome_iff]
  unfold mapSet
  split
  · rename_i hany
    rw [List.any_eq_true] at hany
    obtain ⟨p, hp, hpk⟩ := hany
    simp only [decide_eq_true_eq] at hpk
    rw [List.map_map]
    refine List.mem_map.2 ⟨p, hp, ?_⟩
    simp [hpk]
  · simp

theorem keys_est_pass1 (rnd : Nat → String) (s : RecState) (m : Message)
    (hty : m.type = MsgType.ai) :
    (mapGet (pass1Step rnd s m).messageMap m.id).isSome = true := by
  unfold pass1Step
  rw [hty]
  dsimp only
  split
  · split
    · split
      · exact mapGet_mapSet_self _ _ _
      · exact mapGet_mapSet_self _ _ _
    · split
      · exact mapGet_mapSet_self _ _ _
      · exact mapGet_mapSet_self _ _ _
  · exact mapGet_mapSet_self _ _ _

theorem keys_est_pass3 (s : RecState) (m : Message) (hty : m.type = MsgType.human) :
    (mapGet (pass3Step s m).messageMap m.id).isSome = true := by
  unfold pass3Step
  rw [hty]
  dsimp only
  split
  · assumption
  · rw [mapGet_isSome_iff, List.map_append]
    refine List.mem_append_right _ ?_
    simp

theorem inv_id_pass1 (rnd : Nat → String) (s : RecState) (m : Message)
    (h : ∀ p ∈ s.messageMap, p.2.message.id = p.1) :
    ∀ p ∈ (pass1Step rnd s m).messageMap, p.2.message.id = p.1 := by
  intro p hp
  rcases pass1Step_map_shape rnd s m with hsh | ⟨_, v, hv, hsh⟩
  · rw [hsh] at hp
    exact h p hp
  · rw [hsh] at hp
    rcases mem_mapSet _ _ _ _ hp with h' | h'
    · exact h p h'
    · rw [h']
      simp [hv]

theorem inv_id_pass2 (rnd : Nat → String) (bm : List (String × Bundle))
    (s : RecState) (m : Message)
    (h : ∀ p ∈ s.messageMap, p.2.message.id = p.1) :
    ∀ p ∈ (pass2Step rnd bm s m).messageMap, p.2.message.id = p.1 := by
  intro p hp
  obtain ⟨q, hq, hk, hmsg⟩ := pass2Step_messages rnd bm s m p hp
  rw [hmsg, hk]
  exact h q hq

theorem inv_id_pass3 (s : RecState) (m : Message)
    (h : ∀ p ∈ s.messageMap, p.2.message.id = p.1) :
    ∀ p ∈ (pass3Step s m).messageMap, p.2.message.id = p.1 := by
  intro p hp
  rcases pass3Step_map_shape s m with hsh | ⟨_, hsh⟩
  · rw [hsh] at hp
    exact h p hp
  · rw [hsh] at hp
    rcases List.mem_append.1 hp with h' | h'
    · exact h p h'
    · rw [List.mem_singleton.1 h']

theorem inv_origin_pass1 (rnd : Nat → String) (msgs : List Message) (s : RecState)
    (m : Message) (hm : m ∈ msgs)
    (h : ∀ p ∈ s.messageMap, hasEntryMsg msgs p.1 = true) :
    ∀ p ∈ (pass1Step rnd s m).messageMap, hasEntryMsg msgs p.1 = true := by
  intro p hp
  rcases pass1Step_map_shape rnd s m with hsh | ⟨hty, v, _, hsh⟩
  · rw [hsh] at hp
    exact h p hp
  · rw [hsh] at hp
    rcases mem_mapSet _ _ _ _ hp with h' | h'
    · exact h p h'
    · rw [h']
      rw [hasEntryMsg, List.any_eq_true]
      exact ⟨m, hm, by simp [hty]⟩

theorem inv_origin_pass2 (rnd : Nat → String) (bm : List (String × Bundle))
    (msgs : List Message) (s : RecState) (m : Message)
    (h : ∀ p ∈ s.messageMap, hasEntryMsg msgs p.1 = true) :
    ∀ p ∈ (pass2Step rnd bm s m).messageMap, hasEntryMsg msgs p.1 = true := by
  intro p hp
  obtain ⟨q, hq, hk, _⟩ := pass2Step_messages rnd bm s m p hp
  rw [hk]
  exact h q hq

theorem inv_origin_pass3 (msgs : List Message) (s : RecState) (m : Message) (hm : m ∈ msgs)
    (h : ∀ p ∈ s.messageMap, hasEntryMsg msgs p.1 = true) :
    ∀ p ∈ (pass3Step s m).messageMap, hasEntryMsg msgs p.1 = true := by
  intro p hp
  rcases pass3Step_map_shape s m with hsh | ⟨hty, hsh⟩
  · rw [hsh] at hp
    exact h p hp
  · rw [hsh] at hp
    rcases List.mem_append.1 hp with h' | h'
    · exact h p h'
    · rw [List.mem_singleton.1 h']
      rw [hasEntryMsg, List.any_eq_true]
      exact ⟨m, hm, by simp [hty]⟩

end Janis

namespace Janis

theorem avatarPass_map_id (arr : List EntryData) :
    (avatarPass arr).map (·.message.id) = arr.map (·.message.id) := by
  have h := avatarPass_map_message arr
  have h1 : (avatarPass arr).map (·.message.id) =
      ((avatarPass arr).map (·.message)).map (·.id) := by
    rw [List.map_map]
    rfl
  rw [h1, h, List.map_map]
  rfl

/-- C2: the reconciled output lists entries in the order of first appearance
of each distinct message id in the input sequence, restricted to the ids
that produce an entry (those of assistant or human messages). -/
theorem C2_order_preservation (rnd : Nat → String) (bm : List (String × Bundle))
    (msgs : List Message) :
    (processedMessages rnd bm msgs).map (·.message.id) =
      (dedupFirst (msgs.map (·.id))).filter (hasEntryMsg msgs) := by
  unfold processedMessages
  dsimp only
  rw [avatarPass_map_id]
  have hI1 : ∀ p ∈ (msgs.foldl pass3Step
      (msgs.foldl (pass2Step rnd bm) (msgs.foldl (pass1Step rnd) {}))).messageMap,
      p.2.message.id = p.1 := by
    have i1 := foldl_preserve (fun s : RecState => ∀ p ∈ s.messageMap, p.2.message.id = p.1)
      (pass1Step rnd) (fun s m hs => inv_id_pass1 rnd s m hs) msgs {}
      (by intro p hp; simp [RecState] at hp)
    have i2 := foldl_preserve (fun s : RecState => ∀ p ∈ s.messageMap, p.2.message.id = p.1)
      (pass2Step rnd bm) (fun s m hs => inv_id_pass2 rnd bm s m hs) msgs _ i1
    exact foldl_preserve (fun s : RecState => ∀ p ∈ s.messageMap, p.2.message.id = p.1)
      pass3Step (fun s m hs => inv_id_pass3 s m hs) msgs _ i2
  have hOrigin : ∀ p ∈ (msgs.foldl pass3Step
      (msgs.foldl (pass2Step rnd bm) (msgs.foldl (pass1Step rnd) {}))).messageMap,
      hasEntryMsg msgs p.1 = true := by
    have i1 := foldl_preserve_mem
      (fun s : RecState => ∀ p ∈ s.messageMap, hasEntryMsg msgs p.1 = true)
      (pass1Step rnd) msgs (fun s m hm hs => inv_origin_pass1 rnd msgs s m hm hs) {}
      (by intro p hp; simp [RecState] at hp)
    have i2 := foldl_preserve
      (fun s : RecState => ∀ p ∈ s.messageMap, hasEntryMsg msgs p.1 = true)
      (pass2Step rnd bm) (fun s m hs => inv_origin_pass2 rnd bm msgs s m hs) msgs _ i1
    exact foldl_preserve_mem
      (fun s : RecState => ∀ p ∈ s.messageMap, hasEntryMsg msgs p.1 = true)
      pass3Step msgs (fun s m hm hs => inv_origin_pass3 msgs s m hm hs) _ i2
  have hcover : ∀ p ∈ (msgs.foldl pass3Step
      (msgs.foldl (pass2Step rnd bm) (msgs.foldl (pass1Step rnd) {}))).messageMap,
      ∃ m ∈ msgs, m.id = p.1 := by
    intro p hp
    have h := hOrigin p hp
    rw [hasEntryMsg, List.any_eq_true] at h
    obtain ⟨m, hm, hc⟩ := h
    simp only [Bool.and_eq_true, decide_eq_true_eq] at hc
    exact ⟨m, hm, hc.1⟩
  rw [orderPass_ids msgs _ hI1 hcover]
  refine List.filter_congr ?_
  intro i _
  by_cases hh : hasEntryMsg msgs i = true
  · rw [hh]
    rw [hasEntryMsg, List.any_eq_true] at hh
    obtain ⟨m, hm, hc⟩ := hh
    simp only [Bool.and_eq_true, decide_eq_true_eq] at hc
    obtain ⟨hid, hnt⟩ := hc
    rcases hty : m.type with _ | _ | _
    · have q1 : (mapGet (msgs.foldl (pass1Step rnd)
          ({} : RecState)).messageMap m.id).isSome = true :=
        foldl_establish (fun s : RecState => (mapGet s.messageMap m.id).isSome = true)
          (pass1Step rnd) msgs m hm (fun s => keys_est_pass1 rnd s m hty)
          (fun s m' hs => keys_pass1 rnd s m' m.id hs) {}
      have q2 := foldl_preserve
        (fun s : RecState => (mapGet s.messageMap m.id).isSome = true)
        (pass2Step rnd bm) (fun s m' hs => keys_pass2 rnd bm s m' m.id hs) msgs _ q1
      have q3 := foldl_preserve
        (fun s : RecState => (mapGet s.messageMap m.id).isSome = true)
        pass3Step (fun s m' hs => keys_pass3 s m' m.id hs) msgs _ q2
      rw [← hid]
      exact q3
    · have q3 : (mapGet (msgs.foldl pass3Step
          (msgs.foldl (pass2Step rnd bm)
            (msgs.foldl (pass1Step rnd) {}))).messageMap m.id).isSome = true :=
        foldl_establish (fun s : RecState => (mapGet s.messageMap m.id).isSome = true)
          pass3Step msgs m hm (fun s => keys_est_pass3 s m hty)
          (fun s m' hs => keys_pass3 s m' m.id hs) _
      rw [← hid]
      exact q3
    · exact absurd hty hnt
  · rw [Bool.not_eq_true] at hh
    rw [hh]
    by_contra hcon
    rw [Bool.not_eq_false] at hcon
    rw [mapGet_isSome_iff] at hcon
    obtain ⟨p, hp, hpk⟩ := List.mem_map.1 hcon
    have h := hOrigin p hp
    rw [hpk] at h
    rw [h] at hh
    cases hh

end Janis

namespace Janis

/-! No duplicate composite keys (C1). -/

/-- The claim's composite key: (invocationId, parentInvocationId, ownerMessageId). -/
def recKey (tc : ToolCall) : String × Option String × String :=
  (tc.id, tc.parentToolCallId, tc.messageId)

/-- The `_uniqueId` string built from a composite key. -/
def keyUidFn : String × Option String × String → String
  | (i, p, mid) => i ++ "-" ++ p.getD "main" ++ "-" ++ mid

/-- A well-formed record: a non-empty owner id, and a `_uniqueId` that is the
key's encoding. -/
def wfRecord (tc : ToolCall) : Prop :=
  tc.messageId ≠ "" ∧ tc.uniqueId = keyUidFn (recKey tc)

def entryRecords (d : EntryData) : List ToolCall := d.toolCalls ++ d.subagentToolCalls

def allRecords (map : List (String × EntryData)) : List ToolCall :=
  map.bind (fun p => entryRecords p.2)

def allKeys (map : List (String × EntryData)) : List (String × Option String × String) :=
  (allRecords map).map recKey

theorem string_append_right_cancel (s1 s2 t : String) (h : s1 ++ t = s2 ++ t) : s1 = s2 := by
  have hd : s1.data ++ t.data = s2.data ++ t.data := by
    have := congrArg String.data h
    simpa [String.data_append] using this
  exact String.ext (List.append_left_injective t.data hd)

/-- Two well-formed records with the same unique id and equal owner ids have
equal keys only constrained through the encoding; conversely equal keys give
equal unique ids. -/
theorem wf_uid_of_key_eq (tc1 tc2 : ToolCall) (h1 : wfRecord tc1) (h2 : wfRecord tc2)
    (hk : recKey tc1 = recKey tc2) : tc1.uniqueId = tc2.uniqueId := by
  rw [h1.2, h2.2, hk]

theorem map_updateFirst {α β : Type} (p : α → Bool) (f : α → α) (g : α → β) (l : List α)
    (h : ∀ x, p x = true → g (f x) = g x) : (updateFirst p f l).map g = l.map g := by
  induction l with
  | nil => rfl
  | cons a as ih =>
    unfold updateFirst
    split
    · rename_i hp
      simp [h a hp]
    · simp [ih]

theorem updateFirst_eq {α : Type} (p : α → Bool) (f : α → α) (l : List α) :
    updateFirst p f l = l ∨
    ∃ l1 x l2, l = l1 ++ x :: l2 ∧ p x = true ∧ updateFirst p f l = l1 ++ f x :: l2 := by
  induction l with
  | nil => exact Or.inl rfl
  | cons a as ih =>
    unfold updateFirst
    split
    · rename_i hp
      exact Or.inr ⟨[], a, as, rfl, hp, rfl⟩
    · rcases ih with h | ⟨l1, x, l2, h1, h2, h3⟩
      · exact Or.inl (by rw [h])
      · exact Or.inr ⟨a :: l1, x, l2, by rw [h1]; rfl, h2, by rw [h3]; rfl⟩

theorem allRecords_append (m1 m2 : List (String × EntryData)) :
    allRecords (m1 ++ m2) = allRecords m1 ++ allRecords m2 := by
  unfold allRecords
  simp

theorem allRecords_cons (q : String × EntryData) (m : List (String × EntryData)) :
    allRecords (q :: m) = entryRecords q.2 ++ allRecords m := by
  unfold allRecords
  simp

/-- Inserting an element in the middle preserves `Nodup` of the mapped list
when its image is fresh. -/
theorem nodup_map_insert_middle {α β : Type} (f : α → β) (l1 l2 : List α) (c : α)
    (hn : ((l1 ++ l2).map f).Nodup) (hf : f c ∉ (l1 ++ l2).map f) :
    ((l1 ++ c :: l2).map f).Nodup := by
  have hperm : List.Perm (c :: (l1 ++ l2)) (l1 ++ c :: l2) := List.perm_middle.symm
  have hperm2 : List.Perm ((c :: (l1 ++ l2)).map f) ((l1 ++ c :: l2).map f) := hperm.map f
  rw [← hperm2.nodup_iff]
  rw [List.map_cons, List.nodup_cons]
  exact ⟨hf, hn⟩

/-- Replacing the element at a position preserves `Nodup` of the mapped list
when the new image is fresh outside that position. -/
theorem nodup_map_replace_middle {α β : Type} (f : α → β) (l1 l2 : List α) (x c : α)
    (hn : ((l1 ++ x :: l2).map f).Nodup) (hf : f c ∉ (l1 ++ l2).map f) :
    ((l1 ++ c :: l2).map f).Nodup := by
  have hperm : List.Perm ((l1 ++ x :: l2).map f) ((x :: (l1 ++ l2)).map f) :=
    (List.perm_middle.map f)
  rw [hperm.nodup_iff, List.map_cons, List.nodup_cons] at hn
  exact nodup_map_insert_middle f l1 l2 c hn.2 hf

end Janis

namespace Janis

/-- Hypothesis on one message: every extracted raw call has a truthy id, and
those ids are pairwise distinct. -/
def extractOk (m : Message) : Prop :=
  (∀ tc ∈ toolCallsInMessage m, truthy tc.id ≠ none) ∧
  ((toolCallsInMessage m).map (fun tc => truthy tc.id)).Nodup

theorem normalizeCall_base (rnd : Nat → String) (m : Message) (src : Option SubagentSource)
    (ctr : Nat) (tc : RawToolCall) :
    (normalizeCall rnd m src ctr tc).1.messageId = m.id ∧
    (normalizeCall rnd m src ctr tc).1.parentToolCallId = src.map (·.tool_call_id) := by
  unfold normalizeCall
  rcases truthy tc.id with _ | s <;> exact ⟨rfl, rfl⟩

theorem normalizeCall_uid (rnd : Nat → String) (m : Message) (src : Option SubagentSource)
    (ctr : Nat) (tc : RawToolCall) (hid : m.id ≠ "") :
    (normalizeCall rnd m src ctr tc).1.uniqueId =
      keyUidFn (recKey (normalizeCall rnd m src ctr tc).1) := by
  have hj : jsOr (some m.id) "unknown" = m.id := by simp [jsOr, truthy, hid]
  unfold normalizeCall
  rcases truthy tc.id with _ | s <;> simp [recKey, keyUidFn, hj]

theorem normalizeCall_id_of_some (rnd : Nat → String) (m : Message)
    (src : Option SubagentSource) (ctr : Nat) (tc : RawToolCall) (s : String)
    (hs : truthy tc.id = some s) : (normalizeCall rnd m src ctr tc).1.id = s := by
  unfold normalizeCall
  rw [hs]

theorem normalizeCalls_mem (rnd : Nat → String) (m : Message) (src : Option SubagentSource) :
    ∀ (ctr : Nat) (l : List RawToolCall) (c : ToolCall),
      c ∈ (normalizeCalls rnd m src ctr l).1 →
      ∃ tc ∈ l, ∃ ctr', c = (normalizeCall rnd m src ctr' tc).1 := by
  intro ctr l
  induction l generalizing ctr with
  | nil => intro c hc; simp [normalizeCalls] at hc
  | cons tc rest ih =>
    intro c hc
    unfold normalizeCalls at hc
    dsimp only at hc
    rcases List.mem_cons.1 hc with h | h
    · exact ⟨tc, List.mem_cons_self tc rest, ctr, h⟩
    · obtain ⟨tc', htc', ctr', hc'⟩ := ih _ c h
      exact ⟨tc', List.mem_cons_of_mem tc htc', ctr', hc'⟩

theorem normalizeCalls_map_some_id (rnd : Nat → String) (m : Message)
    (src : Option SubagentSource) :
    ∀ (ctr : Nat) (l : List RawToolCall), (∀ tc ∈ l, truthy tc.id ≠ none) →
      (normalizeCalls rnd m src ctr l).1.map (fun c => some c.id) =
        l.map (fun tc => truthy tc.id) := by
  intro ctr l
  induction l generalizing ctr with
  | nil => intro _; rfl
  | cons tc rest ih =>
    intro hall
    obtain ⟨s, hs⟩ :=
      Option.ne_none_iff_exists'.1 (hall tc (List.mem_cons_self tc rest))
    unfold normalizeCalls
    dsimp only
    rw [List.map_cons, List.map_cons, hs,
      normalizeCall_id_of_some rnd m src ctr tc s hs,
      ih _ (fun tc' h => hall tc' (List.mem_cons_of_mem tc h))]

theorem normalizeCalls_ids_nodup (rnd : Nat → String) (m : Message)
    (src : Option SubagentSource) (ctr : Nat) (l : List RawToolCall)
    (hall : ∀ tc ∈ l, truthy tc.id ≠ none)
    (hnd : (l.map (fun tc => truthy tc.id)).Nodup) :
    ((normalizeCalls rnd m src ctr l).1.map (·.id)).Nodup := by
  have h := normalizeCalls_map_some_id rnd m src ctr l hall
  have h2 : ((normalizeCalls rnd m src ctr l).1.map (·.id)).map some =
      l.map (fun tc => truthy tc.id) := by
    rw [List.map_map]
    exact h
  have h3 : (((normalizeCalls rnd m src ctr l).1.map (·.id)).map some).Nodup := by
    rw [h2]
    exact hnd
  exact h3.of_map some

theorem batch_keys_nodup (tcs : List ToolCall) (par : Option String) (mid : String)
    (hpar : ∀ c ∈ tcs, c.parentToolCallId = par) (hmid : ∀ c ∈ tcs, c.messageId = mid)
    (hwf : ∀ c ∈ tcs, c.uniqueId = keyUidFn (recKey c))
    (hid : (tcs.map (·.id)).Nodup) :
    (tcs.map recKey).Nodup ∧ (tcs.map (·.uniqueId)).Nodup := by
  constructor
  · have heq : tcs.map recKey = (tcs.map (·.id)).map (fun i => (i, par, mid)) := by
      rw [List.map_map]
      refine List.map_congr_left ?_
      intro c hc
      simp [recKey, Function.comp, hpar c hc, hmid c hc]
    rw [heq]
    refine List.Nodup.map ?_ hid
    intro a b hab
    simpa using hab
  · have heq : tcs.map (·.uniqueId) =
        (tcs.map (·.id)).map (fun i => i ++ "-" ++ par.getD "main" ++ "-" ++ mid) := by
      rw [List.map_map]
      refine List.map_congr_left ?_
      intro c hc
      simp only [Function.comp]
      rw [hwf c hc]
      simp [recKey, keyUidFn, hpar c hc, hmid c hc]
    rw [heq]
    refine List.Nodup.map ?_ hid
    intro a b hab
    simp only [String.append_assoc] at hab
    exact string_append_right_cancel a b _ hab

end Janis

namespace Janis

theorem mem_setInsert_self (s : List String) (x : String) : x ∈ setInsert s x := by
  unfold setInsert
  split
  · assumption
  · simp

theorem mem_setInsert_of_mem (s : List String) (x y : String) (h : y ∈ s) :
    y ∈ setInsert s x := by
  unfold setInsert
  split
  · exact h
  · exact List.mem_append_left _ h

theorem nodup_snoc {β : Type} (L : List β) (c : β) (hn : L.Nodup) (hc : c ∉ L) :
    (L ++ [c]).Nodup := by
  rw [(List.perm_append_singleton c L).nodup_iff]
  exact List.nodup_cons.2 ⟨hc, hn⟩

theorem nodup_mid_out {β : Type} (L1 L2 : List β) (x : β) (hn : (L1 ++ x :: L2).Nodup) :
    x ∉ L1 ++ L2 ∧ (L1 ++ L2).Nodup := by
  have h2 : (x :: (L1 ++ L2)).Nodup := List.perm_middle.nodup_iff.mp hn
  exact ⟨(List.nodup_cons.1 h2).1, (List.nodup_cons.1 h2).2⟩

theorem nodup_replace_mid {β : Type} (L1 L2 : List β) (x c : β)
    (hn : (L1 ++ x :: L2).Nodup) (hc : c ∉ L1 ++ L2) : (L1 ++ c :: L2).Nodup := by
  rw [List.perm_middle.nodup_iff]
  exact List.nodup_cons.2 ⟨hc, (nodup_mid_out L1 L2 x hn).2⟩

theorem nodup_inner_swap {β : Type} (A B C : List β) :
    (A ++ (B ++ C)).Nodup ↔ (A ++ (C ++ B)).Nodup :=
  (List.perm_append_comm.append_left A).nodup_iff

theorem nodup_inner_drop {β : Type} (A B C : List β) (h : (A ++ (B ++ C)).Nodup) :
    (A ++ C).Nodup :=
  h.sublist ((List.sublist_append_right B C).append_left A)

theorem nodup_shuffle4 {β : Type} (A B C D : List β) :
    (A ++ (B ++ (C ++ D))).Nodup ↔ (A ++ (D ++ (B ++ C))).Nodup := by
  have h1 : List.Perm ((B ++ C) ++ D) (D ++ (B ++ C)) := List.perm_append_comm
  rw [List.append_assoc] at h1
  exact (h1.append_left A).nodup_iff

theorem mapGet_cons (k : String) (d : EntryData) (rest : List (String × EntryData))
    (i : String) : mapGet ((k, d) :: rest) i = if i = k then some d else mapGet rest i := by
  by_cases h : i = k
  · subst h
    simp [mapGet, List.find?_cons]
  · have h2 : ¬((k, d).1 = i) := fun he => h he.symm
    simp [mapGet, List.find?_cons, h2, h]

theorem mapGet_none_keys (map : List (String × EntryData)) (k : String)
    (h : mapGet map k = none) : ∀ p ∈ map, p.1 ≠ k := by
  intro p hp
  unfold mapGet at h
  rcases hf : List.find? (fun q => q.1 = k) map with _ | q
  · rw [List.find?_eq_none] at hf
    have := hf p hp
    simpa using this
  · rw [hf] at h
    simp at h

theorem mapSet_of_mapGet_none (map : List (String × EntryData)) (k : String)
    (v : EntryData) (h : mapGet map k = none) : mapSet map k v = map ++ [(k, v)] := by
  have hany : map.any (fun p => p.1 = k) = false := by
    rw [List.any_eq_false]
    intro p hp
    simpa using mapGet_none_keys map k h p hp
  unfold mapSet
  rw [hany]
  simp

theorem mapSet_of_mapGet_some (map : List (String × EntryData)) (k : String)
    (ex : EntryData) (v : EntryData) (hnd : (map.map (·.1)).Nodup)
    (hget : mapGet map k = some ex) :
    ∃ pre post, map = pre ++ (k, ex) :: post ∧ (∀ p ∈ pre ++ post, p.1 ≠ k) ∧
      mapSet map k v = pre ++ (k, v) :: post := by
  induction map with
  | nil => simp [mapGet] at hget
  | cons q rest ih =>
    obtain ⟨k0, d0⟩ := q
    rw [mapGet_cons] at hget
    rw [List.map_cons] at hnd
    by_cases hk : k = k0
    · subst hk
      rw [if_pos rfl] at hget
      have hex : d0 = ex := by simpa using hget
      subst hex
      refine ⟨[], rest, rfl, ?_, ?_⟩
      · intro p hp
        simp only [List.nil_append] at hp
        intro he
        exact (List.nodup_cons.1 hnd).1 (he ▸ List.mem_map_of_mem (·.1) hp)
      · have hany : ((k, d0) :: rest).any (fun p => p.1 = k) = true := by simp
        unfold mapSet
        rw [if_pos hany]
        rw [List.map_cons]
        simp only [if_pos rfl]
        congr 1
        have hout : ∀ p ∈ rest, ¬(p.1 = k) := by
          intro p hp he
          exact (List.nodup_cons.1 hnd).1 (he ▸ List.mem_map_of_mem (·.1) hp)
        calc rest.map (fun p => if p.1 = k then (k, v) else p)
            = rest.map (fun p => p) := by
              refine List.map_congr_left ?_
              intro p hp
              rw [if_neg (hout p hp)]
          _ = rest := List.map_id' rest
    · rw [if_neg hk] at hget
      obtain ⟨pre, post, h1, h2, h3⟩ := ih (List.nodup_cons.1 hnd).2 hget
      have hmem : (k, ex) ∈ rest := by
        rw [h1]
        exact List.mem_append_right _ (List.mem_cons_self _ _)
      have hanyr : rest.any (fun p => p.1 = k) = true := by
        rw [List.any_eq_true]
        exact ⟨(k, ex), hmem, by simp⟩
      refine ⟨(k0, d0) :: pre, post, by rw [h1]; rfl, ?_, ?_⟩
      · intro p hp
        rcases List.mem_cons.1 hp with he | hp'
        · rw [he]
          exact fun hc => hk hc.symm
        · exact h2 p hp'
      · have hany : (((k0, d0) :: rest).any (fun p => p.1 = k)) = true := by
          rw [List.any_cons, hanyr, Bool.or_true]
        unfold mapSet
        rw [if_pos hany]
        rw [List.map_cons]
        have hne : ¬((k0, d0).1 = k) := fun hc => hk hc.symm
        rw [if_neg hne]
        unfold mapSet at h3
        rw [if_pos hanyr] at h3
        rw [h3]
        rfl

theorem mem_allRecords (map : List (String × EntryData)) (c : ToolCall) :
    c ∈ allRecords map ↔ ∃ p ∈ map, c ∈ entryRecords p.2 := by
  unfold allRecords
  simp

theorem allRecords_split (pre post : List (String × EntryData)) (k : String) (d : EntryData) :
    allRecords (pre ++ (k, d) :: post) =
      allRecords pre ++ (entryRecords d ++ allRecords post) := by
  rw [allRecords_append, allRecords_cons]

theorem allKeys_split (pre post : List (String × EntryData)) (k : String) (d : EntryData) :
    allKeys (pre ++ (k, d) :: post) =
      allKeys pre ++ (d.toolCalls.map recKey ++ (d.subagentToolCalls.map recKey ++ allKeys post)) := by
  unfold allKeys
  rw [allRecords_split]
  simp [entryRecords, List.append_assoc]

theorem mem_allKeys (map : List (String × EntryData)) (κ : String × Option String × String) :
    κ ∈ allKeys map ↔ ∃ c ∈ allRecords map, κ = recKey c := by
  unfold allKeys
  constructor
  · intro h
    obtain ⟨c, hc, he⟩ := List.mem_map.1 h
    exact ⟨c, hc, he.symm⟩
  · intro ⟨c, hc, he⟩
    exact he ▸ List.mem_map_of_mem recKey hc

end Janis

namespace Janis

/-- Invariant threaded through the per-entry merge folds of the first pass:
`othersK` are the composite keys of the records in all other entries (whose
owner id differs from `mid`); every accumulated record is well-formed, owned
by `mid` and registered in the set; the accumulated unique ids are distinct;
and all keys together are distinct. -/
def mergeInv (othersK : List (String × Option String × String)) (mid : String)
    (st : List ToolCall × List String) : Prop :=
  (∀ c ∈ st.1, wfRecord c ∧ c.messageId = mid ∧ c.uniqueId ∈ st.2) ∧
  (st.1.map (·.uniqueId)).Nodup ∧
  (othersK ++ st.1.map recKey).Nodup ∧
  (∀ κ ∈ othersK, κ.2.2 ≠ mid)

theorem mergeInv_push (othersK : List (String × Option String × String)) (mid : String)
    (acc : List ToolCall) (g : List String) (tc : ToolCall)
    (hinv : mergeInv othersK mid (acc, g)) (hwf : wfRecord tc) (hmid : tc.messageId = mid)
    (hg : tc.uniqueId ∉ g) :
    mergeInv othersK mid (acc ++ [tc], setInsert g tc.uniqueId) := by
  obtain ⟨hall, hu, hk, ho⟩ := hinv
  refine ⟨?_, ?_, ?_, ho⟩
  · intro c hc
    rcases List.mem_append.1 hc with h | h
    · obtain ⟨h1, h2, h3⟩ := hall c h
      exact ⟨h1, h2, mem_setInsert_of_mem _ _ _ h3⟩
    · rw [List.mem_singleton.1 h]
      exact ⟨hwf, hmid, mem_setInsert_self _ _⟩
  · rw [List.map_append]
    refine nodup_snoc _ _ hu ?_
    intro hmem
    obtain ⟨c, hc, he⟩ := List.mem_map.1 hmem
    have he' : c.uniqueId = tc.uniqueId := he
    exact hg (he' ▸ (hall c hc).2.2)
  · rw [List.map_append, ← List.append_assoc]
    refine nodup_snoc _ _ hk ?_
    intro hmem
    rcases List.mem_append.1 hmem with h | h
    · exact ho _ h (by rw [show (recKey tc).2.2 = tc.messageId from rfl, hmid])
    · obtain ⟨c, hc, he⟩ := List.mem_map.1 h
      exact hg (wf_uid_of_key_eq c tc (hall c hc).1 hwf he ▸ (hall c hc).2.2)

theorem mergeToolCall_uid (old tc : ToolCall) :
    (mergeToolCall old tc).uniqueId = tc.uniqueId := rfl

theorem mergeToolCall_key (old tc : ToolCall) : recKey (mergeToolCall old tc) = recKey tc := rfl

theorem mergeToolCall_mid (old tc : ToolCall) :
    (mergeToolCall old tc).messageId = tc.messageId := rfl

theorem wf_mergeToolCall (old tc : ToolCall) (h : wfRecord tc) :
    wfRecord (mergeToolCall old tc) := by
  obtain ⟨h1, h2⟩ := h
  exact ⟨h1, h2⟩

theorem mergeInv_update (othersK : List (String × Option String × String)) (mid : String)
    (acc : List ToolCall) (g : List String) (tc : ToolCall)
    (hinv : mergeInv othersK mid (acc, g)) (hwf : wfRecord tc) (hmid : tc.messageId = mid) :
    mergeInv othersK mid
      (updateFirst (fun etc => etc.uniqueId = tc.uniqueId)
        (fun old => mergeToolCall old tc) acc, g) := by
  rcases updateFirst_eq (fun etc => etc.uniqueId = tc.uniqueId)
      (fun old => mergeToolCall old tc) acc with heq | ⟨l1, x, l2, hl, hp, hres⟩
  · rw [heq]
    exact hinv
  · rw [hres]
    subst hl
    obtain ⟨hall, hu, hk, ho⟩ := hinv
    have hpx : x.uniqueId = tc.uniqueId := by simpa using hp
    have hxmem : x ∈ l1 ++ x :: l2 := List.mem_append_right _ (List.mem_cons_self _ _)
    refine ⟨?_, ?_, ?_, ho⟩
    · intro c hc
      rcases List.mem_append.1 hc with h | h
      · exact hall c (List.mem_append_left _ h)
      · rcases List.mem_cons.1 h with he | h'
        · rw [he]
          refine ⟨wf_mergeToolCall x tc hwf, by rw [mergeToolCall_mid]; exact hmid, ?_⟩
          rw [mergeToolCall_uid, ← hpx]
          exact (hall x hxmem).2.2
        · exact hall c (List.mem_append_right _ (List.mem_cons_of_mem _ h'))
    · have hm : (l1 ++ mergeToolCall x tc :: l2).map (·.uniqueId) =
          (l1 ++ x :: l2).map (·.uniqueId) := by
        rw [List.map_append, List.map_cons, List.map_append, List.map_cons,
          mergeToolCall_uid, hpx]
      rw [hm]
      exact hu
    · rw [List.map_append, List.map_cons, ← List.append_assoc]
      rw [List.map_append, List.map_cons, ← List.append_assoc] at hk
      refine nodup_replace_mid _ _ _ _ hk ?_
      intro hmem
      rcases List.mem_append.1 hmem with h | h
      · rcases List.mem_append.1 h with h' | h'
        · refine ho _ h' ?_
          rw [mergeToolCall_key]
          rw [show (recKey tc).2.2 = tc.messageId from rfl, hmid]
        · obtain ⟨c, hc, he⟩ := List.mem_map.1 h'
          have huid : c.uniqueId = tc.uniqueId := by
            rw [mergeToolCall_key] at he
            exact wf_uid_of_key_eq c tc (hall c (List.mem_append_left _ hc)).1 hwf he
          have hx : x.uniqueId ∉ (l1 ++ l2).map (·.uniqueId) := by
            have := hu
            rw [List.map_append, List.map_cons] at this
            exact ((nodup_mid_out _ _ _ this).1 ∘ (by rw [List.map_append]; exact id))
          exact hx (by
            rw [List.map_append]
            exact List.mem_append_left _
              (List.mem_map.2 ⟨c, hc, by rw [huid, hpx]⟩))
      · obtain ⟨c, hc, he⟩ := List.mem_map.1 h
        have huid : c.uniqueId = tc.uniqueId := by
          rw [mergeToolCall_key] at he
          exact wf_uid_of_key_eq c tc
            (hall c (List.mem_append_right _ (List.mem_cons_of_mem _ hc))).1 hwf he
        have hx : x.uniqueId ∉ (l1 ++ l2).map (·.uniqueId) := by
          have h2 := hu
          rw [List.map_append, List.map_cons] at h2
          have h3 := (nodup_mid_out _ _ _ h2).1
          rw [← List.map_append] at h3
          exact h3
        exact hx (by
          rw [List.map_append]
          exact List.mem_append_right _ (List.mem_map.2 ⟨c, hc, by rw [huid, hpx]⟩))

end Janis

namespace Janis

theorem mergeSubFold_inv (othersK : List (String × Option String × String)) (mid : String)
    (exIds : List String) (st : List ToolCall × List String) (tc : ToolCall)
    (hinv : mergeInv othersK mid st) (hwf : wfRecord tc) (hmid : tc.messageId = mid) :
    mergeInv othersK mid (mergeSubFold exIds st tc) ∧
    ∀ u ∈ st.2, u ∈ (mergeSubFold exIds st tc).2 := by
  obtain ⟨acc, g⟩ := st
  unfold mergeSubFold
  dsimp only
  split
  · rename_i h
    exact ⟨mergeInv_push othersK mid acc g tc hinv hwf hmid h.2,
      fun u hu => mem_setInsert_of_mem _ _ _ hu⟩
  · split
    · exact ⟨mergeInv_update othersK mid acc g tc hinv hwf hmid, fun u hu => hu⟩
    · exact ⟨hinv, fun u hu => hu⟩

theorem mergeMainFold_inv (othersK : List (String × Option String × String)) (mid : String)
    (exIds : List String) (st : List ToolCall × List String) (tc : ToolCall)
    (hinv : mergeInv othersK mid st) (hwf : wfRecord tc) (hmid : tc.messageId = mid) :
    mergeInv othersK mid (mergeMainFold exIds st tc) ∧
    ∀ u ∈ st.2, u ∈ (mergeMainFold exIds st tc).2 := by
  obtain ⟨acc, g⟩ := st
  unfold mergeMainFold
  dsimp only
  split
  · rename_i h
    exact ⟨mergeInv_push othersK mid acc g tc hinv hwf hmid h.2,
      fun u hu => mem_setInsert_of_mem _ _ _ hu⟩
  · exact ⟨hinv, fun u hu => hu⟩

theorem mergeSubFold_foldl (othersK : List (String × Option String × String)) (mid : String)
    (exIds : List String) (tcs : List ToolCall) (st : List ToolCall × List String)
    (hall : ∀ tc ∈ tcs, wfRecord tc ∧ tc.messageId = mid)
    (hinv : mergeInv othersK mid st) :
    mergeInv othersK mid (tcs.foldl (mergeSubFold exIds) st) ∧
    ∀ u ∈ st.2, u ∈ (tcs.foldl (mergeSubFold exIds) st).2 := by
  have h := foldl_preserve_mem
    (fun st' => mergeInv othersK mid st' ∧ ∀ u ∈ st.2, u ∈ st'.2)
    (mergeSubFold exIds) tcs
    (fun s' tc htc hs' => by
      obtain ⟨h1, h2⟩ := mergeSubFold_inv othersK mid exIds s' tc hs'.1
        (hall tc htc).1 (hall tc htc).2
      exact ⟨h1, fun u hu => h2 u (hs'.2 u hu)⟩)
    st ⟨hinv, fun u hu => hu⟩
  exact h

theorem mergeMainFold_foldl (othersK : List (String × Option String × String)) (mid : String)
    (exIds : List String) (tcs : List ToolCall) (st : List ToolCall × List String)
    (hall : ∀ tc ∈ tcs, wfRecord tc ∧ tc.messageId = mid)
    (hinv : mergeInv othersK mid st) :
    mergeInv othersK mid (tcs.foldl (mergeMainFold exIds) st) ∧
    ∀ u ∈ st.2, u ∈ (tcs.foldl (mergeMainFold exIds) st).2 := by
  have h := foldl_preserve_mem
    (fun st' => mergeInv othersK mid st' ∧ ∀ u ∈ st.2, u ∈ st'.2)
    (mergeMainFold exIds) tcs
    (fun s' tc htc hs' => by
      obtain ⟨h1, h2⟩ := mergeMainFold_inv othersK mid exIds s' tc hs'.1
        (hall tc htc).1 (hall tc htc).2
      exact ⟨h1, fun u hu => h2 u (hs'.2 u hu)⟩)
    st ⟨hinv, fun u hu => hu⟩
  exact h

theorem trackNewFold_mono (st : List String × List String) (tc : ToolCall) :
    ∀ u ∈ st.1, u ∈ (trackNewFold st tc).1 := by
  obtain ⟨g, a⟩ := st
  unfold trackNewFold
  dsimp only
  split
  · exact fun u hu => hu
  · split
    · exact fun u hu => mem_setInsert_of_mem _ _ _ (mem_setInsert_of_mem _ _ _ hu)
    · exact fun u hu => mem_setInsert_of_mem _ _ _ hu

theorem trackNewFold_est (st : List String × List String) (tc : ToolCall) :
    tc.uniqueId ∈ (trackNewFold st tc).1 := by
  obtain ⟨g, a⟩ := st
  unfold trackNewFold
  dsimp only
  split
  · assumption
  · split
    · exact mem_setInsert_of_mem _ _ _ (mem_setInsert_self _ _)
    · exact mem_setInsert_self _ _

theorem trackNewFold_all (tcs : List ToolCall) (st : List String × List String) :
    (∀ u ∈ st.1, u ∈ (tcs.foldl trackNewFold st).1) ∧
    ∀ tc ∈ tcs, tc.uniqueId ∈ (tcs.foldl trackNewFold st).1 := by
  constructor
  · intro u hu
    exact foldl_preserve (fun st' => u ∈ st'.1) trackNewFold
      (fun s' m hs' => trackNewFold_mono s' m u hs') tcs st hu
  · intro tc htc
    exact foldl_establish (fun st' => tc.uniqueId ∈ st'.1) trackNewFold tcs tc htc
      (fun s' => trackNewFold_est s' tc)
      (fun s' m' hs' => trackNewFold_mono s' m' _ hs') st

theorem normalized_batch (rnd : Nat → String) (m : Message) (src : Option SubagentSource)
    (ctr : Nat) (hid : m.id ≠ "") (hex : extractOk m) :
    (∀ c ∈ (normalizeCalls rnd m src ctr (toolCallsInMessage m)).1,
        wfRecord c ∧ c.messageId = m.id) ∧
    ((normalizeCalls rnd m src ctr (toolCallsInMessage m)).1.map (·.uniqueId)).Nodup ∧
    ((normalizeCalls rnd m src ctr (toolCallsInMessage m)).1.map recKey).Nodup ∧
    (∀ κ ∈ (normalizeCalls rnd m src ctr (toolCallsInMessage m)).1.map recKey,
        κ.2.2 = m.id) := by
  have hmem : ∀ c ∈ (normalizeCalls rnd m src ctr (toolCallsInMessage m)).1,
      c.messageId = m.id ∧ c.parentToolCallId = src.map (·.tool_call_id) ∧ wfRecord c := by
    intro c hc
    obtain ⟨tc, _, ctr', he⟩ := normalizeCalls_mem rnd m src ctr _ c hc
    subst he
    obtain ⟨h1, h2⟩ := normalizeCall_base rnd m src ctr' tc
    have h3 := normalizeCall_uid rnd m src ctr' tc hid
    exact ⟨h1, h2, ⟨h1 ▸ hid, h3⟩⟩
  have hidnd := normalizeCalls_ids_nodup rnd m src ctr _ hex.1 hex.2
  obtain ⟨hk, hu⟩ := batch_keys_nodup _ (src.map (·.tool_call_id)) m.id
    (fun c hc => (hmem c hc).2.1) (fun c hc => (hmem c hc).1)
    (fun c hc => (hmem c hc).2.2.2) hidnd
  refine ⟨fun c hc => ⟨(hmem c hc).2.2, (hmem c hc).1⟩, hu, hk, ?_⟩
  intro κ hκ
  obtain ⟨c, hc, he⟩ := List.mem_map.1 hκ
  have he2 : κ.2.2 = c.messageId := by rw [← he]; rfl
  rw [he2]
  exact (hmem c hc).1

end Janis

namespace Janis

/-- State invariant shared by all three passes: entry keys are distinct,
every stored record is well-formed and registered in the global id set, each
entry's unique ids are distinct, and all composite keys are pairwise
distinct. -/
structure RInv2 (s : RecState) : Prop where
  kNodup : (s.messageMap.map (·.1)).Nodup
  wf : ∀ c ∈ allRecords s.messageMap, wfRecord c
  gmem : ∀ c ∈ allRecords s.messageMap, c.uniqueId ∈ s.globalIds
  eNodup : ∀ p ∈ s.messageMap, ((entryRecords p.2).map (·.uniqueId)).Nodup
  keysNodup : (allKeys s.messageMap).Nodup

/-- Additionally, during the first pass every record is owned by the entry it
lives in (the second pass breaks this: state-map records carry the
ToolMessage's id while living in the delegating entry). -/
structure RInv (s : RecState) : Prop where
  base : RInv2 s
  owner : ∀ p ∈ s.messageMap, ∀ c ∈ entryRecords p.2, c.messageId = p.1

theorem othersK_ne (s : RecState) (m : Message) (pre post : List (String × EntryData))
    (ex : EntryData) (hsplit : s.messageMap = pre ++ (m.id, ex) :: post)
    (hfresh : ∀ p ∈ pre ++ post, p.1 ≠ m.id)
    (hown : ∀ p ∈ s.messageMap, ∀ c ∈ entryRecords p.2, c.messageId = p.1) :
    ∀ κ ∈ allKeys pre ++ allKeys post, κ.2.2 ≠ m.id := by
  intro κ hκ
  rcases List.mem_append.1 hκ with h | h
  · obtain ⟨c, hc, he⟩ := (mem_allKeys pre κ).1 h
    obtain ⟨p, hp, hcp⟩ := (mem_allRecords pre c).1 hc
    have h1 : c.messageId = p.1 := hown p (hsplit ▸ List.mem_append_left _ hp) c hcp
    have h2 : p.1 ≠ m.id := hfresh p (List.mem_append_left _ hp)
    rw [he]
    show c.messageId ≠ m.id
    rw [h1]
    exact h2
  · obtain ⟨c, hc, he⟩ := (mem_allKeys post κ).1 h
    obtain ⟨p, hp, hcp⟩ := (mem_allRecords post c).1 hc
    have h1 : c.messageId = p.1 :=
      hown p (hsplit ▸ List.mem_append_right _ (List.mem_cons_of_mem _ hp)) c hcp
    have h2 : p.1 ≠ m.id := hfresh p (List.mem_append_right _ hp)
    rw [he]
    show c.messageId ≠ m.id
    rw [h1]
    exact h2

theorem keys_init_drop (pre post : List (String × EntryData)) (k : String) (ex : EntryData)
    (hkeys : (allKeys (pre ++ (k, ex) :: post)).Nodup) :
    ((allKeys pre ++ allKeys post) ++ ex.toolCalls.map recKey).Nodup ∧
    ((allKeys pre ++ allKeys post) ++ ex.subagentToolCalls.map recKey).Nodup ∧
    (allKeys pre ++ allKeys post).Nodup := by
  rw [allKeys_split] at hkeys
  have hmain : ((allKeys pre ++ allKeys post) ++ ex.toolCalls.map recKey).Nodup := by
    have h1 := hkeys
    rw [← List.append_assoc] at h1
    have h2 := nodup_inner_drop _ _ _ h1
    rw [List.append_assoc, nodup_inner_swap, ← List.append_assoc] at h2
    exact h2
  have hsub : ((allKeys pre ++ allKeys post) ++ ex.subagentToolCalls.map recKey).Nodup := by
    have h2 := nodup_inner_drop _ _ _ hkeys
    rw [nodup_inner_swap, ← List.append_assoc] at h2
    exact h2
  exact ⟨hmain, hsub, hsub.of_append_left⟩

theorem mergeInv_init_main (s : RecState) (m : Message) (pre post : List (String × EntryData))
    (ex : EntryData) (hsplit : s.messageMap = pre ++ (m.id, ex) :: post)
    (hfresh : ∀ p ∈ pre ++ post, p.1 ≠ m.id) (hold : RInv s) :
    mergeInv (allKeys pre ++ allKeys post) m.id (ex.toolCalls, s.globalIds) := by
  obtain ⟨⟨hkn, hwf, hg, hen, hkeys⟩, hown⟩ := hold
  have hmem_entry : (m.id, ex) ∈ s.messageMap := by
    rw [hsplit]
    exact List.mem_append_right _ (List.mem_cons_self _ _)
  have hrec : ∀ c ∈ entryRecords ex, c ∈ allRecords s.messageMap := by
    intro c hc
    rw [hsplit, allRecords_split]
    exact List.mem_append_right _ (List.mem_append_left _ hc)
  refine ⟨?_, ?_, ?_, othersK_ne s m pre post ex hsplit hfresh hown⟩
  · intro c hc
    have hc2 : c ∈ entryRecords ex := List.mem_append_left _ hc
    exact ⟨hwf c (hrec c hc2), hown _ hmem_entry c hc2, hg c (hrec c hc2)⟩
  · have hu := hen _ hmem_entry
    rw [show entryRecords (m.id, ex).2 = ex.toolCalls ++ ex.subagentToolCalls from rfl,
      List.map_append] at hu
    exact hu.of_append_left
  · exact (keys_init_drop pre post m.id ex (hsplit ▸ hkeys)).1

theorem mergeInv_init_sub (s : RecState) (m : Message) (pre post : List (String × EntryData))
    (ex : EntryData) (hsplit : s.messageMap = pre ++ (m.id, ex) :: post)
    (hfresh : ∀ p ∈ pre ++ post, p.1 ≠ m.id) (hold : RInv s) :
    mergeInv (allKeys pre ++ allKeys post) m.id (ex.subagentToolCalls, s.globalIds) := by
  obtain ⟨⟨hkn, hwf, hg, hen, hkeys⟩, hown⟩ := hold
  have hmem_entry : (m.id, ex) ∈ s.messageMap := by
    rw [hsplit]
    exact List.mem_append_right _ (List.mem_cons_self _ _)
  have hrec : ∀ c ∈ entryRecords ex, c ∈ allRecords s.messageMap := by
    intro c hc
    rw [hsplit, allRecords_split]
    exact List.mem_append_right _ (List.mem_append_left _ hc)
  refine ⟨?_, ?_, ?_, othersK_ne s m pre post ex hsplit hfresh hown⟩
  · intro c hc
    have hc2 : c ∈ entryRecords ex := List.mem_append_right _ hc
    exact ⟨hwf c (hrec c hc2), hown _ hmem_entry c hc2, hg c (hrec c hc2)⟩
  · have hu := hen _ hmem_entry
    rw [show entryRecords (m.id, ex).2 = ex.toolCalls ++ ex.subagentToolCalls from rfl,
      List.map_append] at hu
    exact hu.of_append_right
  · exact (keys_init_drop pre post m.id ex (hsplit ▸ hkeys)).2.1

theorem RInv_set_entry (s : RecState) (m : Message) (pre post : List (String × EntryData))
    (ex d' : EntryData) (g' a' : List String) (c' : Nat)
    (hsplit : s.messageMap = pre ++ (m.id, ex) :: post)
    (hfresh : ∀ p ∈ pre ++ post, p.1 ≠ m.id)
    (hold : RInv s)
    (hmono : ∀ u ∈ s.globalIds, u ∈ g')
    (hmg : mergeInv (allKeys pre ++ allKeys post) m.id (entryRecords d', g')) :
    RInv ⟨pre ++ (m.id, d') :: post, g', a', c'⟩ := by
  obtain ⟨⟨hkn, hwf, hg, hen, hkeys⟩, hown⟩ := hold
  obtain ⟨hall, hu, hk, _⟩ := hmg
  have hmem_old : ∀ (c : ToolCall), c ∈ allRecords pre ∨ c ∈ allRecords post →
      c ∈ allRecords s.messageMap := by
    intro c hc
    rw [hsplit, allRecords_split]
    rcases hc with hc | hc
    · exact List.mem_append_left _ hc
    · exact List.mem_append_right _ (List.mem_append_right _ hc)
  refine ⟨⟨?_, ?_, ?_, ?_, ?_⟩, ?_⟩
  · show ((pre ++ (m.id, d') :: post).map (·.1)).Nodup
    have he : (pre ++ (m.id, d') :: post).map (·.1) = s.messageMap.map (·.1) := by
      rw [hsplit]
      simp
    rw [he]
    exact hkn
  · show ∀ c ∈ allRecords (pre ++ (m.id, d') :: post), wfRecord c
    intro c hc
    rw [allRecords_split] at hc
    rcases List.mem_append.1 hc with hc | hc
    · exact hwf c (hmem_old c (Or.inl hc))
    · rcases List.mem_append.1 hc with hc | hc
      · exact (hall c hc).1
      · exact hwf c (hmem_old c (Or.inr hc))
  · show ∀ c ∈ allRecords (pre ++ (m.id, d') :: post), c.uniqueId ∈ g'
    intro c hc
    rw [allRecords_split] at hc
    rcases List.mem_append.1 hc with hc | hc
    · exact hmono _ (hg c (hmem_old c (Or.inl hc)))
    · rcases List.mem_append.1 hc with hc | hc
      · exact (hall c hc).2.2
      · exact hmono _ (hg c (hmem_old c (Or.inr hc)))
  · show ∀ p ∈ pre ++ (m.id, d') :: post, ((entryRecords p.2).map (·.uniqueId)).Nodup
    intro p hp
    rcases List.mem_append.1 hp with hp | hp
    · exact hen p (hsplit ▸ List.mem_append_left _ hp)
    · rcases List.mem_cons.1 hp with he | hp'
      · rw [he]
        exact hu
      · exact hen p (hsplit ▸ List.mem_append_right _ (List.mem_cons_of_mem _ hp'))
  · show (allKeys (pre ++ (m.id, d') :: post)).Nodup
    have hk2 := hk
    rw [List.append_assoc, nodup_inner_swap] at hk2
    rw [show (entryRecords d').map recKey =
        d'.toolCalls.map recKey ++ d'.subagentToolCalls.map recKey from by
      rw [show entryRecords d' = d'.toolCalls ++ d'.subagentToolCalls from rfl,
        List.map_append]] at hk2
    rw [List.append_assoc] at hk2
    rw [allKeys_split]
    exact hk2
  · show ∀ p ∈ pre ++ (m.id, d') :: post, ∀ c ∈ entryRecords p.2, c.messageId = p.1
    intro p hp c hc
    rcases List.mem_append.1 hp with hp | hp
    · exact hown p (hsplit ▸ List.mem_append_left _ hp) c hc
    · rcases List.mem_cons.1 hp with he | hp'
      · rw [he] at hc ⊢
        exact (hall c hc).2.1
      · exact hown p (hsplit ▸ List.mem_append_right _ (List.mem_cons_of_mem _ hp')) c hc

theorem allKeys_append_single (map : List (String × EntryData)) (k : String) (d : EntryData) :
    allKeys (map ++ [(k, d)]) = allKeys map ++ (entryRecords d).map recKey := by
  unfold allKeys
  rw [allRecords_append, allRecords_cons, List.map_append]
  simp [allRecords]

theorem RInv_new_entry (s : RecState) (m : Message) (d' : EntryData)
    (g' a' : List String) (c' : Nat)
    (hget : mapGet s.messageMap m.id = none)
    (hold : RInv s)
    (hrec : ∀ c ∈ entryRecords d', wfRecord c ∧ c.messageId = m.id)
    (huid : ((entryRecords d').map (·.uniqueId)).Nodup)
    (hkeysN : ((entryRecords d').map recKey).Nodup)
    (hmid : ∀ κ ∈ (entryRecords d').map recKey, κ.2.2 = m.id)
    (hgall : ∀ c ∈ entryRecords d', c.uniqueId ∈ g')
    (hmono : ∀ u ∈ s.globalIds, u ∈ g') :
    RInv ⟨s.messageMap ++ [(m.id, d')], g', a', c'⟩ := by
  obtain ⟨⟨hkn, hwf, hg, hen, hkeys⟩, hown⟩ := hold
  have hfr : ∀ p ∈ s.messageMap, p.1 ≠ m.id := mapGet_none_keys s.messageMap m.id hget
  have hrecs : allRecords (s.messageMap ++ [(m.id, d')]) =
      allRecords s.messageMap ++ entryRecords d' := by
    rw [allRecords_append, allRecords_cons]
    simp [allRecords]
  refine ⟨⟨?_, ?_, ?_, ?_, ?_⟩, ?_⟩
  · show ((s.messageMap ++ [(m.id, d')]).map (·.1)).Nodup
    rw [show (s.messageMap ++ [(m.id, d')]).map (·.1) =
        s.messageMap.map (·.1) ++ [m.id] from by simp]
    refine nodup_snoc _ _ hkn ?_
    intro hmem
    obtain ⟨p, hp, he⟩ := List.mem_map.1 hmem
    exact hfr p hp he
  · show ∀ c ∈ allRecords (s.messageMap ++ [(m.id, d')]), wfRecord c
    intro c hc
    rw [hrecs] at hc
    rcases List.mem_append.1 hc with hc | hc
    · exact hwf c hc
    · exact (hrec c hc).1
  · show ∀ c ∈ allRecords (s.messageMap ++ [(m.id, d')]), c.uniqueId ∈ g'
    intro c hc
    rw [hrecs] at hc
    rcases List.mem_append.1 hc with hc | hc
    · exact hmono _ (hg c hc)
    · exact hgall c hc
  · show ∀ p ∈ s.messageMap ++ [(m.id, d')], ((entryRecords p.2).map (·.uniqueId)).Nodup
    intro p hp
    rcases List.mem_append.1 hp with hp | hp
    · exact hen p hp
    · rw [List.mem_singleton.1 hp]
      exact huid
  · show (allKeys (s.messageMap ++ [(m.id, d')])).Nodup
    rw [allKeys_append_single]
    rw [List.nodup_append]
    refine ⟨hkeys, hkeysN, ?_⟩
    intro κ h1 h2
    obtain ⟨c, hc, he⟩ := (mem_allKeys _ κ).1 h1
    obtain ⟨p, hp, hcp⟩ := (mem_allRecords _ c).1 hc
    have e1 : κ.2.2 = c.messageId := by
      rw [he]
      rfl
    have e2 := hown p hp c hcp
    have e3 := hmid κ h2
    exact hfr p hp (by rw [← e2, ← e1, e3])
  · show ∀ p ∈ s.messageMap ++ [(m.id, d')], ∀ c ∈ entryRecords p.2, c.messageId = p.1
    intro p hp c hc
    rcases List.mem_append.1 hp with hp | hp
    · exact hown p hp c hc
    · rw [List.mem_singleton.1 hp] at hc ⊢
      exact (hrec c hc).2

end Janis

namespace Janis

theorem pass1Step_inv (rnd : Nat → String) (s : RecState) (m : Message)
    (hid : m.id ≠ "") (hex : extractOk m) (h : RInv s) : RInv (pass1Step rnd s m) := by
  unfold pass1Step
  rcases hty : m.type with _ | _ | _
  · dsimp only
    obtain ⟨hb1, hb2, hb3, hb4⟩ := normalized_batch rnd m m.subagent_source s.ctr hid hex
    rcases hget : mapGet s.messageMap m.id with _ | ex
    · dsimp only
      rw [mapSet_of_mapGet_none _ _ _ hget]
      obtain ⟨hmono, hall⟩ := trackNewFold_all
        (normalizeCalls rnd m m.subagent_source s.ctr (toolCallsInMessage m)).1
        (s.globalIds, s.actualIds)
      have hER : entryRecords
          ⟨m, if m.subagent_source.isSome then [] else
              (normalizeCalls rnd m m.subagent_source s.ctr (toolCallsInMessage m)).1,
            if m.subagent_source.isSome then
              (normalizeCalls rnd m m.subagent_source s.ctr (toolCallsInMessage m)).1
            else []⟩ =
          (normalizeCalls rnd m m.subagent_source s.ctr (toolCallsInMessage m)).1 := by
        by_cases hs : m.subagent_source.isSome
        · rw [if_pos hs, if_pos hs]
          rfl
        · rw [if_neg hs, if_neg hs]
          show _ ++ [] = _
          rw [List.append_nil]
      refine RInv_new_entry s m _ _ _ _ hget h ?_ ?_ ?_ ?_ ?_ hmono
      · rw [hER]
        exact hb1
      · rw [hER]
        exact hb2
      · rw [hER]
        exact hb3
      · rw [hER]
        exact hb4
      · rw [hER]
        exact hall
    · dsimp only
      split
      · -- sub-agent source: merge into the sub-agent list
        split
        · rename_i hne
          obtain ⟨pre, post, hsplit, hfresh, hset⟩ :=
            mapSet_of_mapGet_some s.messageMap m.id ex
              ⟨m, [],
                ((normalizeCalls rnd m m.subagent_source s.ctr (toolCallsInMessage m)).1.foldl
                  (mergeSubFold (ex.subagentToolCalls.map (·.uniqueId)))
                  (ex.subagentToolCalls, s.globalIds)).1⟩ h.base.kNodup hget
          rw [hset]
          obtain ⟨hmg, hmono⟩ := mergeSubFold_foldl (allKeys pre ++ allKeys post) m.id
            (ex.subagentToolCalls.map (·.uniqueId))
            (normalizeCalls rnd m m.subagent_source s.ctr (toolCallsInMessage m)).1
            (ex.subagentToolCalls, s.globalIds) hb1
            (mergeInv_init_sub s m pre post ex hsplit hfresh h)
          exact RInv_set_entry s m pre post ex _ _ _ _ hsplit hfresh h hmono hmg
        · obtain ⟨pre, post, hsplit, hfresh, hset⟩ :=
            mapSet_of_mapGet_some s.messageMap m.id ex ⟨m, [], []⟩ h.base.kNodup hget
          rw [hset]
          refine RInv_set_entry s m pre post ex ⟨m, [], []⟩ s.globalIds s.actualIds _
            hsplit hfresh h (fun u hu => hu) ?_
          refine ⟨?_, ?_, ?_, othersK_ne s m pre post ex hsplit hfresh h.owner⟩
          · intro c hc
            simp [show entryRecords ⟨m, [], []⟩ = ([] : List ToolCall) from rfl] at hc
          · show (([] : List ToolCall).map (·.uniqueId)).Nodup
            simp
          · show ((allKeys pre ++ allKeys post) ++ ([] : List ToolCall).map recKey).Nodup
            rw [List.map_nil, List.append_nil]
            exact (keys_init_drop pre post m.id ex
              (hsplit ▸ h.base.keysNodup)).2.2
      · -- main-agent source: merge into the main list
        split
        · rename_i hne
          obtain ⟨pre, post, hsplit, hfresh, hset⟩ :=
            mapSet_of_mapGet_some s.messageMap m.id ex
              ⟨m,
                ((normalizeCalls rnd m m.subagent_source s.ctr (toolCallsInMessage m)).1.foldl
                  (mergeMainFold (ex.toolCalls.map (·.uniqueId)))
                  (ex.toolCalls, s.globalIds)).1, []⟩ h.base.kNodup hget
          rw [hset]
          obtain ⟨hmg, hmono⟩ := mergeMainFold_foldl (allKeys pre ++ allKeys post) m.id
            (ex.toolCalls.map (·.uniqueId))
            (normalizeCalls rnd m m.subagent_source s.ctr (toolCallsInMessage m)).1
            (ex.toolCalls, s.globalIds) hb1
            (mergeInv_init_main s m pre post ex hsplit hfresh h)
          refine RInv_set_entry s m pre post ex _ _ _ _ hsplit hfresh h hmono ?_
          show mergeInv _ _
            (((normalizeCalls rnd m m.subagent_source s.ctr (toolCallsInMessage m)).1.foldl
              (mergeMainFold (ex.toolCalls.map (·.uniqueId)))
              (ex.toolCalls, s.globalIds)).1 ++ [], _)
          rw [List.append_nil]
          exact hmg
        · obtain ⟨pre, post, hsplit, hfresh, hset⟩ :=
            mapSet_of_mapGet_some s.messageMap m.id ex ⟨m, [], []⟩ h.base.kNodup hget
          rw [hset]
          refine RInv_set_entry s m pre post ex ⟨m, [], []⟩ s.globalIds s.actualIds _
            hsplit hfresh h (fun u hu => hu) ?_
          refine ⟨?_, ?_, ?_, othersK_ne s m pre post ex hsplit hfresh h.owner⟩
          · intro c hc
            simp [show entryRecords ⟨m, [], []⟩ = ([] : List ToolCall) from rfl] at hc
          · show (([] : List ToolCall).map (·.uniqueId)).Nodup
            simp
          · show ((allKeys pre ++ allKeys post) ++ ([] : List ToolCall).map recKey).Nodup
            rw [List.map_nil, List.append_nil]
            exact (keys_init_drop pre post m.id ex
              (hsplit ▸ h.base.keysNodup)).2.2
  · exact h
  · exact h

end Janis

namespace Janis

theorem completeCall_key (res : String) (tc : ToolCall) :
    recKey (completeCall res tc) = recKey tc := rfl

theorem wf_completeCall (res : String) (tc : ToolCall) (h : wfRecord tc) :
    wfRecord (completeCall res tc) := ⟨h.1, h.2⟩

/-- Invariant threaded through the state-map bundle merge of the second pass:
`outside` are the records of all other entries, `mainR` the target entry's
main list, `acc` its sub-agent list; all are well-formed and registered, all
keys are distinct, and the entry's unique ids are distinct. -/
def smInv (outside mainR acc : List ToolCall) (g : List String) : Prop :=
  (∀ c ∈ outside ++ (mainR ++ acc), wfRecord c ∧ c.uniqueId ∈ g) ∧
  ((outside ++ (mainR ++ acc)).map recKey).Nodup ∧
  ((mainR ++ acc).map (·.uniqueId)).Nodup

theorem smInv_push (outside mainR acc : List ToolCall) (g : List String) (nc : ToolCall)
    (h : smInv outside mainR acc g) (hwfn : wfRecord nc) (hgn : nc.uniqueId ∉ g)
    (g2 : List String) (hg2 : ∀ u ∈ setInsert g nc.uniqueId, u ∈ g2) :
    smInv outside mainR (acc ++ [nc]) g2 := by
  obtain ⟨hall, hknd, hund⟩ := h
  have hl : outside ++ (mainR ++ (acc ++ [nc])) = (outside ++ (mainR ++ acc)) ++ [nc] := by
    simp
  have hl2 : mainR ++ (acc ++ [nc]) = (mainR ++ acc) ++ [nc] := by
    simp
  refine ⟨?_, ?_, ?_⟩
  · intro c hc
    rw [hl] at hc
    rcases List.mem_append.1 hc with hc | hc
    · obtain ⟨h1, h2⟩ := hall c hc
      exact ⟨h1, hg2 _ (mem_setInsert_of_mem _ _ _ h2)⟩
    · rw [List.mem_singleton.1 hc]
      exact ⟨hwfn, hg2 _ (mem_setInsert_self _ _)⟩
  · rw [hl, List.map_append]
    refine nodup_snoc _ _ hknd ?_
    intro hmem
    obtain ⟨c, hc, he⟩ := List.mem_map.1 hmem
    have he' : recKey c = recKey nc := he
    exact hgn (wf_uid_of_key_eq c nc (hall c hc).1 hwfn he' ▸ (hall c hc).2)
  · rw [hl2, List.map_append]
    refine nodup_snoc _ _ hund ?_
    intro hmem
    obtain ⟨c, hc, he⟩ := List.mem_map.1 hmem
    have he' : c.uniqueId = nc.uniqueId := he
    exact hgn (he' ▸ (hall c (List.mem_append_right _ hc)).2)

theorem stateMapAdd_inv (rnd : Nat → String) (tcid mId : String) (expTy subTy : Option String)
    (outside mainR : List ToolCall)
    (st : List ToolCall × List String × List String × List String × Nat) (tc : RawToolCall)
    (hmid : mId ≠ "")
    (h : smInv outside mainR st.1 st.2.1) :
    smInv outside mainR (stateMapAdd rnd tcid mId expTy subTy st tc).1
      (stateMapAdd rnd tcid mId expTy subTy st tc).2.1 := by
  obtain ⟨acc, g, a, exIds, ctr⟩ := st
  unfold stateMapAdd
  dsimp only
  generalize (match truthy tc.id with
    | some s => (s, ctr)
    | none => ("tool-" ++ rnd ctr, ctr + 1)) = pr
  obtain ⟨tcId, ctr2⟩ := pr
  dsimp only
  have hjs : jsOr (some mId) "tool-msg" = mId := by
    simp [jsOr, truthy, hmid]
  split
  · exact h
  · rename_i hdup
    split
    · dsimp only
      refine smInv_push outside mainR acc g _ h ⟨hmid, ?_⟩
        (fun hh => hdup (Or.inr (Or.inl hh))) _ ?_
      · simp [keyUidFn, recKey, hjs]
      · intro u hu
        exact mem_setInsert_of_mem _ _ _ hu
    · dsimp only
      refine smInv_push outside mainR acc g _ h ⟨hmid, ?_⟩
        (fun hh => hdup (Or.inr (Or.inl hh))) _ ?_
      · simp [keyUidFn, recKey, hjs]
      · intro u hu
        exact hu

end Janis

namespace Janis

theorem stateMapAdd_foldl_inv (rnd : Nat → String) (tcid mId : String)
    (expTy subTy : Option String) (outside mainR : List ToolCall) (l : List RawToolCall)
    (st : List ToolCall × List String × List String × List String × Nat)
    (hmid : mId ≠ "") (h : smInv outside mainR st.1 st.2.1) :
    smInv outside mainR ((l.foldl (stateMapAdd rnd tcid mId expTy subTy) st).1)
      ((l.foldl (stateMapAdd rnd tcid mId expTy subTy) st).2.1) :=
  foldl_preserve (fun st' => smInv outside mainR st'.1 st'.2.1)
    (stateMapAdd rnd tcid mId expTy subTy)
    (fun s' tc hs' => stateMapAdd_inv rnd tcid mId expTy subTy outside mainR s' tc hmid hs')
    l st h

theorem bundleMerge_inv (rnd : Nat → String) (bm : List (String × Bundle)) (m : Message)
    (tcid : String) (skip : Bool) (outside mainR subCalls : List ToolCall)
    (g1 a1 : List String) (ctr : Nat)
    (hmid : m.id ≠ "") (h : smInv outside mainR subCalls g1) :
    smInv outside mainR (bundleMerge rnd bm m tcid skip subCalls g1 a1 ctr).1
      (bundleMerge rnd bm m tcid skip subCalls g1 a1 ctr).2.1 := by
  unfold bundleMerge
  split
  · exact h
  · split
    · split
      · dsimp only
        split
        · dsimp only
          exact stateMapAdd_foldl_inv rnd tcid m.id _ _ outside mainR _
            (subCalls, g1, a1, [], ctr) hmid h
        · exact h
      · exact h
    · exact h

theorem RInv2_result_entry (s : RecState) (pre post : List (String × EntryData)) (k : String)
    (d e : EntryData) (updT b1 : List ToolCall) (g' a' : List String) (c' : Nat)
    (hmap : s.messageMap = pre ++ (k, d) :: post)
    (hE : entryRecords e = updT ++ b1)
    (h : RInv2 s)
    (hsm : smInv (allRecords pre ++ allRecords post) updT b1 g') :
    RInv2 ⟨pre ++ (k, e) :: post, g', a', c'⟩ := by
  obtain ⟨hkn, hwf, hg, hen, hkeys⟩ := h
  obtain ⟨hall, hknd, hund⟩ := hsm
  have hcover : ∀ c ∈ allRecords (pre ++ (k, e) :: post),
      c ∈ (allRecords pre ++ allRecords post) ++ (updT ++ b1) := by
    intro c hc
    rw [allRecords_split] at hc
    rcases List.mem_append.1 hc with hc | hc
    · exact List.mem_append_left _ (List.mem_append_left _ hc)
    · rcases List.mem_append.1 hc with hc | hc
      · rw [hE] at hc
        exact List.mem_append_right _ hc
      · exact List.mem_append_left _ (List.mem_append_right _ hc)
  refine ⟨?_, ?_, ?_, ?_, ?_⟩
  · show ((pre ++ (k, e) :: post).map (·.1)).Nodup
    have he : (pre ++ (k, e) :: post).map (·.1) = s.messageMap.map (·.1) := by
      rw [hmap]
      simp
    rw [he]
    exact hkn
  · show ∀ c ∈ allRecords (pre ++ (k, e) :: post), wfRecord c
    intro c hc
    exact (hall c (hcover c hc)).1
  · show ∀ c ∈ allRecords (pre ++ (k, e) :: post), c.uniqueId ∈ g'
    intro c hc
    exact (hall c (hcover c hc)).2
  · show ∀ p ∈ pre ++ (k, e) :: post, ((entryRecords p.2).map (·.uniqueId)).Nodup
    intro p hp
    rcases List.mem_append.1 hp with hp | hp
    · exact hen p (hmap ▸ List.mem_append_left _ hp)
    · rcases List.mem_cons.1 hp with he' | hp'
      · rw [he']
        show ((entryRecords (k, e).2).map (·.uniqueId)).Nodup
        rw [show entryRecords (k, e).2 = updT ++ b1 from hE]
        exact hund
      · exact hen p (hmap ▸ List.mem_append_right _ (List.mem_cons_of_mem _ hp'))
  · show (allKeys (pre ++ (k, e) :: post)).Nodup
    have hknd2 : (((allRecords pre).map recKey ++
        ((allRecords post).map recKey ++ (updT.map recKey ++ b1.map recKey)))).Nodup := by
      have h1 := hknd
      rw [List.map_append, List.map_append, List.map_append, List.append_assoc] at h1
      exact h1
    have h2 := (nodup_shuffle4 ((allRecords pre).map recKey) (updT.map recKey)
      (b1.map recKey) ((allRecords post).map recKey)).2 hknd2
    unfold allKeys
    rw [allRecords_split, hE]
    rw [List.map_append, List.map_append, List.map_append]
    rw [List.append_assoc]
    exact h2

end Janis

namespace Janis

theorem mainResult_core (rnd : Nat → String) (bm : List (String × Bundle)) (m : Message)
    (tcid : String) (s : RecState) (pre post : List (String × EntryData)) (k : String)
    (d : EntryData) (skip : Bool) (g0 a0 : List String)
    (hmap : s.messageMap = pre ++ (k, d) :: post)
    (hmid : m.id ≠ "") (h : RInv2 s)
    (hg0 : ∀ u ∈ s.globalIds, u ∈ g0) :
    RInv2 ⟨pre ++ (k,
        { message := d.message
          toolCalls := updateFirst (fun tc => tc.id = tcid)
            (completeCall (extractStringFromMessageContent m)) d.toolCalls
          subagentToolCalls := (bundleMerge rnd bm m tcid skip
            d.subagentToolCalls g0 a0 s.ctr).1 }) :: post,
      (bundleMerge rnd bm m tcid skip d.subagentToolCalls g0 a0 s.ctr).2.1,
      (bundleMerge rnd bm m tcid skip d.subagentToolCalls g0 a0 s.ctr).2.2.1,
      (bundleMerge rnd bm m tcid skip d.subagentToolCalls g0 a0 s.ctr).2.2.2⟩ := by
  obtain ⟨hkn, hwf, hg, hen, hkeys⟩ := h
  have hmemd : (k, d) ∈ s.messageMap := by
    rw [hmap]
    exact List.mem_append_right _ (List.mem_cons_self _ _)
  have hUk : (updateFirst (fun tc => tc.id = tcid)
      (completeCall (extractStringFromMessageContent m)) d.toolCalls).map recKey =
      d.toolCalls.map recKey :=
    map_updateFirst _ _ recKey _ (fun x _ => completeCall_key _ x)
  have hUu : (updateFirst (fun tc => tc.id = tcid)
      (completeCall (extractStringFromMessageContent m)) d.toolCalls).map (·.uniqueId) =
      d.toolCalls.map (·.uniqueId) :=
    map_updateFirst _ _ _ _ (fun x _ => rfl)
  have hdmem : ∀ c ∈ entryRecords d, c ∈ allRecords s.messageMap := by
    intro c hc
    rw [hmap, allRecords_split]
    exact List.mem_append_right _ (List.mem_append_left _ hc)
  have hUmem : ∀ c ∈ updateFirst (fun tc => tc.id = tcid)
      (completeCall (extractStringFromMessageContent m)) d.toolCalls,
      wfRecord c ∧ c.uniqueId ∈ s.globalIds := by
    intro c hc
    rcases mem_updateFirst _ _ _ _ hc with h' | ⟨y, hy, he⟩
    · have hc2 : c ∈ allRecords s.messageMap := hdmem c (List.mem_append_left _ h')
      exact ⟨hwf c hc2, hg c hc2⟩
    · have hyd : y ∈ allRecords s.messageMap := hdmem y (List.mem_append_left _ hy)
      subst he
      exact ⟨wf_completeCall _ y (hwf y hyd), hg y hyd⟩
  have hsmInit : smInv (allRecords pre ++ allRecords post)
      (updateFirst (fun tc => tc.id = tcid)
        (completeCall (extractStringFromMessageContent m)) d.toolCalls)
      d.subagentToolCalls g0 := by
    refine ⟨?_, ?_, ?_⟩
    · intro c hc
      rcases List.mem_append.1 hc with hc | hc
      · have hc2 : c ∈ allRecords s.messageMap := by
          rw [hmap, allRecords_split]
          rcases List.mem_append.1 hc with hc | hc
          · exact List.mem_append_left _ hc
          · exact List.mem_append_right _ (List.mem_append_right _ hc)
        exact ⟨hwf c hc2, hg0 _ (hg c hc2)⟩
      · rcases List.mem_append.1 hc with hc | hc
        · obtain ⟨h1, h2⟩ := hUmem c hc
          exact ⟨h1, hg0 _ h2⟩
        · have hc2 : c ∈ allRecords s.messageMap :=
            hdmem c (List.mem_append_right _ hc)
          exact ⟨hwf c hc2, hg0 _ (hg c hc2)⟩
    · have hfull := hkeys
      rw [hmap, allKeys_split] at hfull
      have h2 := (nodup_shuffle4 _ _ _ _).1 hfull
      unfold allKeys at h2
      rw [List.map_append, List.map_append, List.map_append, hUk, List.append_assoc]
      exact h2
    · rw [List.map_append, hUu, ← List.map_append]
      exact hen _ hmemd
  have hsm := bundleMerge_inv rnd bm m tcid skip _ _ _ g0 a0 s.ctr hmid hsmInit
  exact RInv2_result_entry s pre post k d _ _ _ _ _ _ hmap rfl
    ⟨hkn, hwf, hg, hen, hkeys⟩ hsm

theorem mainResultPass_inv (rnd : Nat → String) (bm : List (String × Bundle)) (m : Message)
    (tcid : String) (s : RecState) (hmid : m.id ≠ "") (h : RInv2 s) :
    RInv2 (mainResultPass rnd bm m tcid s) := by
  unfold mainResultPass
  rcases hsp : splitAtFirst (fun p => p.2.toolCalls.any (fun tc => tc.id = tcid)) s.messageMap
    with _ | ⟨pre, ⟨k, d⟩, post⟩
  · rw [hsp]
    exact h
  · rw [hsp]
    have hmap := splitAtFirst_eq _ _ _ _ _ hsp
    dsimp only
    have hg0 : ∀ (sc : Option (List ToolCall)), ∀ u ∈ s.globalIds,
        u ∈ (match sc with
          | some hits =>
            hits.foldl (fun (ga : List String × List String) (tc : ToolCall) =>
              let g' := if tc.id ≠ "" then setInsert ga.1 ("id:" ++ tc.id) else ga.1
              let a' := if tc.id ≠ "" then setInsert ga.2 tc.id else ga.2
              (setInsert g' tc.uniqueId, a')) (s.globalIds, s.actualIds)
          | none => (s.globalIds, s.actualIds)).1 := by
      intro sc u hu
      rcases sc with _ | hits
      · exact hu
      · refine foldl_preserve (fun ga' => u ∈ ga'.1) _ ?_ hits (s.globalIds, s.actualIds) hu
        intro s' tc hs'
        dsimp only
        split
        · exact mem_setInsert_of_mem _ _ _ (mem_setInsert_of_mem _ _ _ hs')
        · exact mem_setInsert_of_mem _ _ _ hs'
    exact mainResult_core rnd bm m tcid s pre post k d _ _ _ hmap hmid h (hg0 _)

end Janis

namespace Janis

theorem RInv2_updateFirstEntrySub (res tcid : String) (s : RecState) (h : RInv2 s) :
    RInv2 { s with messageMap := updateFirstEntrySub res tcid s.messageMap } := by
  obtain ⟨hkn, hwf, hg, hen, hkeys⟩ := h
  rcases updateFirstEntrySub_shape res tcid s.messageMap with heq | ⟨pre, k, d, post, h1, h2⟩
  · rw [heq]
    exact ⟨hkn, hwf, hg, hen, hkeys⟩
  · rw [h2]
    have hUk : (updateFirst (fun tc => tc.id = tcid)
        (completeCall res) d.subagentToolCalls).map recKey =
        d.subagentToolCalls.map recKey :=
      map_updateFirst _ _ recKey _ (fun x _ => completeCall_key _ x)
    have hUu : (updateFirst (fun tc => tc.id = tcid)
        (completeCall res) d.subagentToolCalls).map (·.uniqueId) =
        d.subagentToolCalls.map (·.uniqueId) :=
      map_updateFirst _ _ _ _ (fun x _ => rfl)
    have hdmem : ∀ c ∈ entryRecords d, c ∈ allRecords s.messageMap := by
      intro c hc
      rw [h1, allRecords_split]
      exact List.mem_append_right _ (List.mem_append_left _ hc)
    have hmemd : (k, d) ∈ s.messageMap := by
      rw [h1]
      exact List.mem_append_right _ (List.mem_cons_self _ _)
    have hUmem : ∀ c ∈ updateFirst (fun tc => tc.id = tcid)
        (completeCall res) d.subagentToolCalls,
        wfRecord c ∧ c.uniqueId ∈ s.globalIds := by
      intro c hc
      rcases mem_updateFirst _ _ _ _ hc with h' | ⟨y, hy, he⟩
      · have hc2 : c ∈ allRecords s.messageMap := hdmem c (List.mem_append_right _ h')
        exact ⟨hwf c hc2, hg c hc2⟩
      · have hyd : y ∈ allRecords s.messageMap := hdmem y (List.mem_append_right _ hy)
        subst he
        exact ⟨wf_completeCall _ y (hwf y hyd), hg y hyd⟩
    have hcover : ∀ (c : ToolCall),
        c ∈ allRecords (pre ++ (k, { d with
          subagentToolCalls := updateFirst (fun tc => tc.id = tcid)
            (completeCall res) d.subagentToolCalls }) :: post) →
        wfRecord c ∧ c.uniqueId ∈ s.globalIds := by
      intro c hc
      rw [allRecords_split] at hc
      rcases List.mem_append.1 hc with hc | hc
      · have hc2 : c ∈ allRecords s.messageMap := by
          rw [h1, allRecords_split]
          exact List.mem_append_left _ hc
        exact ⟨hwf c hc2, hg c hc2⟩
      · rcases List.mem_append.1 hc with hc | hc
        · rcases List.mem_append.1 hc with hc | hc
          · have hc2 : c ∈ allRecords s.messageMap := hdmem c (List.mem_append_left _ hc)
            exact ⟨hwf c hc2, hg c hc2⟩
          · exact hUmem c hc
        · have hc2 : c ∈ allRecords s.messageMap := by
            rw [h1, allRecords_split]
            exact List.mem_append_right _ (List.mem_append_right _ hc)
          exact ⟨hwf c hc2, hg c hc2⟩
    refine ⟨?_, ?_, ?_, ?_, ?_⟩
    · show ((pre ++ (k, _) :: post).map (·.1)).Nodup
      have he : (pre ++ (k, { d with
          subagentToolCalls := updateFirst (fun tc => tc.id = tcid)
            (completeCall res) d.subagentToolCalls }) :: post).map (·.1) =
          s.messageMap.map (·.1) := by
        rw [h1]
        simp
      rw [he]
      exact hkn
    · intro c hc
      exact (hcover c hc).1
    · intro c hc
      exact (hcover c hc).2
    · intro p hp
      rcases List.mem_append.1 hp with hp | hp
      · exact hen p (h1 ▸ List.mem_append_left _ hp)
      · rcases List.mem_cons.1 hp with he' | hp'
        · rw [he']
          show ((d.toolCalls ++ updateFirst (fun tc => tc.id = tcid)
            (completeCall res) d.subagentToolCalls).map (·.uniqueId)).Nodup
          rw [List.map_append, hUu, ← List.map_append]
          exact hen _ hmemd
        · exact hen p (h1 ▸ List.mem_append_right _ (List.mem_cons_of_mem _ hp'))
    · show (allKeys _).Nodup
      rw [allKeys_split, hUk]
      have hfull := hkeys
      rw [h1, allKeys_split] at hfull
      exact hfull

theorem pass2Step_inv (rnd : Nat → String) (bm : List (String × Bundle)) (s : RecState)
    (m : Message) (hmid : m.id ≠ "") (h : RInv2 s) : RInv2 (pass2Step rnd bm s m) := by
  unfold pass2Step
  rcases hty : m.type with _ | _ | _
  · exact h
  · exact h
  · rcases htc : truthy m.tool_call_id with _ | tcid
    · exact h
    · dsimp only
      split
      · exact RInv2_updateFirstEntrySub _ tcid s h
      · exact mainResultPass_inv rnd bm m tcid s hmid h

theorem pass3Step_inv (s : RecState) (m : Message) (h : RInv2 s) : RInv2 (pass3Step s m) := by
  unfold pass3Step
  rcases hty : m.type with _ | _ | _
  · exact h
  · dsimp only
    split
    · exact h
    · rename_i hnone
      obtain ⟨hkn, hwf, hg, hen, hkeys⟩ := h
      have hget : mapGet s.messageMap m.id = none := by
        rcases hmg : mapGet s.messageMap m.id with _ | v
        · rfl
        · exact absurd (by rw [hmg]; rfl) hnone
      have hfr := mapGet_none_keys s.messageMap m.id hget
      have hrecs : allRecords (s.messageMap ++ [(m.id, ⟨m, [], []⟩)]) =
          allRecords s.messageMap := by
        rw [allRecords_append, allRecords_cons]
        simp [allRecords, entryRecords]
      refine ⟨?_, ?_, ?_, ?_, ?_⟩
      · show ((s.messageMap ++ [(m.id, (⟨m, [], []⟩ : EntryData))]).map (·.1)).Nodup
        rw [show (s.messageMap ++ [(m.id, (⟨m, [], []⟩ : EntryData))]).map (·.1) =
            s.messageMap.map (·.1) ++ [m.id] from by simp]
        refine nodup_snoc _ _ hkn ?_
        intro hmem
        obtain ⟨p, hp, he⟩ := List.mem_map.1 hmem
        exact hfr p hp he
      · intro c hc
        rw [hrecs] at hc
        exact hwf c hc
      · intro c hc
        rw [hrecs] at hc
        exact hg c hc
      · intro p hp
        rcases List.mem_append.1 hp with hp | hp
        · exact hen p hp
        · rw [List.mem_singleton.1 hp]
          show ((entryRecords ⟨m, [], []⟩).map (·.uniqueId)).Nodup
          simp [entryRecords]
      · show (allKeys (s.messageMap ++ [(m.id, (⟨m, [], []⟩ : EntryData))])).Nodup
        unfold allKeys
        rw [hrecs]
        exact hkeys
  · exact h

end Janis


namespace Janis

theorem orderFold_entries (map : List (String × EntryData)) (l : List Message) :
    ∀ st : List EntryData × List String,
      (l.foldl (orderStep map) st).1 =
        st.1 ++ (orderIds map st.2 (l.map (·.id))).filterMap (fun i => mapGet map i) ∧
      (l.foldl (orderStep map) st).2 = st.2 ++ orderIds map st.2 (l.map (·.id)) := by
  induction l with
  | nil =>
    intro st
    exact ⟨by simp [orderIds], by simp [orderIds]⟩
  | cons m ms ih =>
    intro st
    rw [List.foldl_cons, List.map_cons]
    obtain ⟨ha, hs⟩ := ih (orderStep map st m)
    unfold orderStep at ha hs ⊢
    rcases hmg : mapGet map m.id with _ | d <;> rw [hmg] at ha hs <;> dsimp only at ha hs ⊢
    · have hcond : ¬((mapGet map m.id).isSome ∧ m.id ∉ st.2) := by
        rw [hmg]
        simp
      unfold orderIds
      rw [if_neg hcond]
      exact ⟨ha, hs⟩
    · by_cases hseen : m.id ∈ st.2
      · rw [if_pos hseen] at ha hs ⊢
        have hcond : ¬((mapGet map m.id).isSome ∧ m.id ∉ st.2) := by
          rw [hmg]
          simp [hseen]
        unfold orderIds
        rw [if_neg hcond]
        exact ⟨ha, hs⟩
      · rw [if_neg hseen] at ha hs ⊢
        have hcond : (mapGet map m.id).isSome ∧ m.id ∉ st.2 := by
          rw [hmg]
          exact ⟨rfl, hseen⟩
        unfold orderIds
        rw [if_pos hcond]
        constructor
        · rw [List.filterMap_cons, hmg, ha]
          simp
        · rw [hs]
          simp
    
theorem orderIds_props (map : List (String × EntryData)) (ids : List String) :
    ∀ seen, (orderIds map seen ids).Nodup ∧
      ∀ i ∈ orderIds map seen ids, (mapGet map i).isSome ∧ i ∉ seen := by
  induction ids with
  | nil =>
    intro seen
    exact ⟨by simp [orderIds], by simp [orderIds]⟩
  | cons i is ih =>
    intro seen
    unfold orderIds
    by_cases hc : (mapGet map i).isSome ∧ i ∉ seen
    · rw [if_pos hc]
      obtain ⟨hnd, hall⟩ := ih (seen ++ [i])
      refine ⟨List.nodup_cons.2 ⟨?_, hnd⟩, ?_⟩
      · intro hmem
        exact (hall i hmem).2 (by simp)
      · intro j hj
        rcases List.mem_cons.1 hj with he | hj'
        · subst he
          exact hc
        · obtain ⟨h1, h2⟩ := hall j hj'
          exact ⟨h1, fun hjs => h2 (List.mem_append_left _ hjs)⟩
    · rw [if_neg hc]
      exact ih seen

end Janis

namespace Janis

theorem filterMap_get_perm (map : List (String × EntryData)) :
    ∀ P : List String, P.Nodup → (∀ i ∈ P, (mapGet map i).isSome) →
      (map.map (·.1)).Nodup →
      List.Perm (P.filterMap (fun i => mapGet map i) ++
        (map.filter (fun p => p.1 ∉ P)).map (·.2)) (map.map (·.2)) := by
  induction map with
  | nil =>
    intro P _ _ _
    have h1 : P.filterMap (fun i => mapGet [] i) = [] :=
      List.filterMap_eq_nil.2 (fun i _ => rfl)
    rw [h1]
    simp
  | cons q rest ih =>
    intro P hPnd hPsome hknd
    obtain ⟨k, d⟩ := q
    have hkfresh : k ∉ rest.map (·.1) := by
      rw [List.map_cons] at hknd
      exact (List.nodup_cons.1 hknd).1
    have hknd' : (rest.map (·.1)).Nodup := by
      rw [List.map_cons] at hknd
      exact (List.nodup_cons.1 hknd).2
    by_cases hkP : k ∈ P
    · obtain ⟨P1, P2, rfl⟩ := List.append_of_mem hkP
      have hkout : k ∉ P1 ++ P2 := (nodup_mid_out P1 P2 k hPnd).1
      have hP12nd : (P1 ++ P2).Nodup := (nodup_mid_out P1 P2 k hPnd).2
      have hfm1 : P1.filterMap (fun i => mapGet ((k, d) :: rest) i) =
          P1.filterMap (fun i => mapGet rest i) := by
        refine List.filterMap_congr ?_
        intro i hi
        rw [mapGet_cons]
        rw [if_neg (show ¬ i = k from fun he => hkout (he ▸ List.mem_append_left _ hi))]
      have hfm2 : P2.filterMap (fun i => mapGet ((k, d) :: rest) i) =
          P2.filterMap (fun i => mapGet rest i) := by
        refine List.filterMap_congr ?_
        intro i hi
        rw [mapGet_cons]
        rw [if_neg (show ¬ i = k from fun he => hkout (he ▸ List.mem_append_right _ hi))]
      have hfk : mapGet ((k, d) :: rest) k = some d := by
        rw [mapGet_cons, if_pos rfl]
      have hfl : ((k, d) :: rest).filter (fun p => p.1 ∉ P1 ++ k :: P2) =
          rest.filter (fun p => p.1 ∉ P1 ++ k :: P2) := by
        rw [List.filter_cons]
        have : ¬((k, d).1 ∉ P1 ++ k :: P2) := by
          simp
        simp only [this, decide_False]
        rfl
      have hflc : rest.filter (fun p => p.1 ∉ P1 ++ k :: P2) =
          rest.filter (fun p => p.1 ∉ P1 ++ P2) := by
        refine List.filter_congr ?_
        intro p hp
        have hpk : p.1 ≠ k := fun he => hkfresh (he ▸ List.mem_map_of_mem (·.1) hp)
        have hiff : (p.1 ∉ P1 ++ k :: P2) ↔ (p.1 ∉ P1 ++ P2) := by
          simp only [List.mem_append, List.mem_cons]
          constructor
          · intro hn hmem
            exact hn (by tauto)
          · intro hn hmem
            rcases hmem with h | h
            · exact hn (Or.inl h)
            · rcases h with h | h
              · exact hpk h
              · exact hn (Or.inr h)
        exact decide_eq_decide.2 hiff
      rw [List.filterMap_append, List.filterMap_cons, hfk, hfm1, hfm2, hfl, hflc]
      rw [List.map_cons]
      have hsome' : ∀ i ∈ P1 ++ P2, (mapGet rest i).isSome := by
        intro i hi
        have hik : i ≠ k := fun he => hkout (he ▸ hi)
        have := hPsome i (by
          rcases List.mem_append.1 hi with h | h
          · exact List.mem_append_left _ h
          · exact List.mem_append_right _ (List.mem_cons_of_mem _ h))
        rw [mapGet_cons, if_neg hik] at this
        exact this
      have hih := ih (P1 ++ P2) hP12nd hsome' hknd'
      have hstep1 : List.Perm
          (P1.filterMap (fun i => mapGet rest i) ++
            (d :: P2.filterMap (fun i => mapGet rest i)) ++
            (rest.filter (fun p => p.1 ∉ P1 ++ P2)).map (·.2))
          (d :: ((P1 ++ P2).filterMap (fun i => mapGet rest i) ++
            (rest.filter (fun p => p.1 ∉ P1 ++ P2)).map (·.2))) := by
        rw [List.filterMap_append]
        have he1 : P1.filterMap (fun i => mapGet rest i) ++
            (d :: P2.filterMap (fun i => mapGet rest i)) ++
            (rest.filter (fun p => p.1 ∉ P1 ++ P2)).map (·.2) =
            P1.filterMap (fun i => mapGet rest i) ++
            d :: (P2.filterMap (fun i => mapGet rest i) ++
              (rest.filter (fun p => p.1 ∉ P1 ++ P2)).map (·.2)) := by
          simp
        rw [he1, List.append_assoc]
        exact List.perm_middle
      exact hstep1.trans (hih.cons d)
    · have hfm : P.filterMap (fun i => mapGet ((k, d) :: rest) i) =
          P.filterMap (fun i => mapGet rest i) := by
        refine List.filterMap_congr ?_
        intro i hi
        rw [mapGet_cons]
        rw [if_neg (show ¬ i = k from fun he => hkP (he ▸ hi))]
      have hfl : ((k, d) :: rest).filter (fun p => p.1 ∉ P) =
          (k, d) :: rest.filter (fun p => p.1 ∉ P) := by
        rw [List.filter_cons]
        have hc : ((k, d).1 ∉ P) := hkP
        simp only [hc, decide_True]
        rfl
      have hsome' : ∀ i ∈ P, (mapGet rest i).isSome := by
        intro i hi
        have hik : i ≠ k := fun he => hkP (he ▸ hi)
        have := hPsome i hi
        rw [mapGet_cons, if_neg hik] at this
        exact this
      have hih := ih P hPnd hsome' hknd'
      rw [hfm, hfl, List.map_cons, List.map_cons]
      have hstep1 : List.Perm
          (P.filterMap (fun i => mapGet rest i) ++
            d :: (rest.filter (fun p => p.1 ∉ P)).map (·.2))
          (d :: (P.filterMap (fun i => mapGet rest i) ++
            (rest.filter (fun p => p.1 ∉ P)).map (·.2))) := List.perm_middle
      exact hstep1.trans (hih.cons d)

end Janis

namespace Janis

theorem orderPass_perm (msgs : List Message) (map : List (String × EntryData))
    (hknd : (map.map (·.1)).Nodup) :
    List.Perm (orderPass msgs map) (map.map (·.2)) := by
  unfold orderPass
  dsimp only
  obtain ⟨h1, h2⟩ := orderFold_entries map msgs ([], [])
  rw [h1, h2]
  simp only [List.nil_append]
  obtain ⟨hnd, hprops⟩ := orderIds_props map (msgs.map (·.id)) []
  exact filterMap_get_perm map (orderIds map [] (msgs.map (·.id))) hnd
    (fun i hi => (hprops i hi).1) hknd

/-- The records carried by a rendered entry. -/
def viewRecords (e : ViewEntry) : List ToolCall := e.toolCalls ++ e.subagentToolCalls

theorem avatarPass_map_records (arr : List EntryData) :
    (avatarPass arr).map viewRecords = arr.map entryRecords := by
  unfold avatarPass
  rw [List.map_map]
  have h1 : (viewRecords ∘ (fun p : Nat × EntryData =>
      let (i, d) := p
      ({ message := d.message
         toolCalls := d.toolCalls
         subagentToolCalls := d.subagentToolCalls
         showAvatar :=
           if i = 0 then true
           else
             match arr[i-1]? with
             | some prev => decide (d.message.type ≠ prev.message.type)
             | none => true } : ViewEntry))) =
      (fun p : Nat × EntryData => entryRecords p.2) := by
    funext p
    rcases p with ⟨i, d⟩
    rfl
  rw [h1]
  have h2 : (fun p : Nat × EntryData => entryRecords p.2) =
      (entryRecords ∘ Prod.snd) := rfl
  rw [h2, ← List.map_map]
  rw [show arr.enum.map Prod.snd = arr from enumFrom_map_snd 0 arr]

theorem bind_eq_join_map {α β : Type} (l : List α) (f : α → List β) :
    l.bind f = (l.map f).join := rfl

theorem perm_bind {α β : Type} (l1 l2 : List α) (f : α → List β) (h : List.Perm l1 l2) :
    List.Perm (l1.bind f) (l2.bind f) := h.bind_right f

theorem bind_map_snd (map : List (String × EntryData)) :
    (map.map (·.2)).bind entryRecords = allRecords map := by
  unfold allRecords
  induction map with
  | nil => rfl
  | cons q rest ih =>
    rw [List.map_cons]
    show entryRecords q.2 ++ (rest.map (·.2)).bind entryRecords =
      entryRecords q.2 ++ rest.bind (fun p => entryRecords p.2)
    rw [ih]

theorem processed_keys_nodup (rnd : Nat → String) (bm : List (String × Bundle))
    (msgs : List Message) (hids : ∀ m ∈ msgs, m.id ≠ "")
    (hex : ∀ m ∈ msgs, extractOk m) :
    (((processedMessages rnd bm msgs).bind viewRecords).map recKey).Nodup := by
  have h0 : RInv {} := by
    refine ⟨⟨?_, ?_, ?_, ?_, ?_⟩, ?_⟩ <;> simp [allRecords, allKeys, entryRecords]
  have h1 : RInv (msgs.foldl (pass1Step rnd) {}) :=
    foldl_preserve_mem RInv (pass1Step rnd) msgs
      (fun s' m hm hs' => pass1Step_inv rnd s' m (hids m hm) (hex m hm) hs') {} h0
  have h2 : RInv2 (msgs.foldl (pass2Step rnd bm) (msgs.foldl (pass1Step rnd) {})) :=
    foldl_preserve_mem RInv2 (pass2Step rnd bm) msgs
      (fun s' m hm hs' => pass2Step_inv rnd bm s' m (hids m hm) hs') _ h1.base
  have h3 : RInv2 (msgs.foldl pass3Step
      (msgs.foldl (pass2Step rnd bm) (msgs.foldl (pass1Step rnd) {}))) :=
    foldl_preserve RInv2 pass3Step (fun s' m hs' => pass3Step_inv s' m hs') msgs _ h2
  unfold processedMessages
  dsimp only
  rw [bind_eq_join_map, avatarPass_map_records, ← bind_eq_join_map]
  have hperm := orderPass_perm msgs _ h3.kNodup
  have hp2 := perm_bind _ _ entryRecords hperm
  rw [bind_map_snd] at hp2
  have hp3 := hp2.map recKey
  rw [hp3.nodup_iff]
  exact h3.keysNodup

end Janis

namespace Janis

theorem mainResultPass_skip (rnd : Nat → String) (bm : List (String × Bundle)) (m : Message)
    (tcid : String) (s : RecState) (pre post : List (String × EntryData)) (k : String)
    (d : EntryData)
    (hsp : splitAtFirst (fun p => p.2.toolCalls.any (fun tc => tc.id = tcid)) s.messageMap =
      some (pre, (k, d), post))
    (hscan : scanHits (pre ++ (k, { d with
        toolCalls := updateFirst (fun tc => tc.id = tcid)
          (completeCall (extractStringFromMessageContent m)) d.toolCalls }) :: post) tcid ≠
      none) :
    (mainResultPass rnd bm m tcid s).messageMap =
      pre ++ (k, { d with
        toolCalls := updateFirst (fun tc => tc.id = tcid)
          (completeCall (extractStringFromMessageContent m)) d.toolCalls }) :: post := by
  unfold mainResultPass
  rw [hsp]
  dsimp only
  rcases heb : (((lookupBundle bm tcid).map (·.tool_calls)).getD []).any (fun tc =>
      match truthy tc.id with
      | some sid => decide (sid ∈ s.actualIds ∨ ("id:" ++ sid) ∈ s.globalIds)
      | none => false) with _ | _
  · try dsimp only
    rcases hsc : scanHits (pre ++ (k, { d with
        toolCalls := updateFirst (fun tc => tc.id = tcid)
          (completeCall (extractStringFromMessageContent m)) d.toolCalls }) :: post) tcid
      with _ | hits
    · exact absurd hsc hscan
    · rfl
  · rfl

end Janis

namespace Janis

/-- C1 witness fixtures: an entry owning the delegating call `t1` that
already holds a sub-agent record of that delegation. -/
def c1wMain : ToolCall :=
  { id := "t1", name := some "task", status := some "pending",
    uniqueId := "t1-main-k", source := "ai_message", messageId := "k" }

def c1wSub : ToolCall :=
  { id := "s1", name := some "q1", status := some "pending",
    uniqueId := "s1-t1-k", source := "state_map", messageId := "k",
    parentToolCallId := some "t1" }

def dW : EntryData := { message := mAi, toolCalls := [c1wMain], subagentToolCalls := [c1wSub] }

def sWC1 : RecState := { messageMap := [("k", dW)] }

def mWT : Message :=
  { id := "T2", type := .tool, tool_call_id := some "t1", content := .text "done" }

instance extractOk_decidable (m : Message) : Decidable (extractOk m) := by
  unfold extractOk
  infer_instance

/-- C1 (corrected): (a) when every message has a nonempty id and the raw
calls extracted from each assistant message carry truthy, within-message
distinct provider ids, no two records of the reconciled output share the
composite key (invocationId, parentInvocationId, ownerMessageId); (b) when
some entry already holds sub-agent calls of a delegation, re-delivery of
that delegation's bundle leaves every entry's records unchanged — the first
owning entry only gets its answered call completed. -/
theorem C1_no_duplicate_keys :
    (∀ (rnd : Nat → String) (bm : List (String × Bundle)) (msgs : List Message),
      (∀ m ∈ msgs, m.id ≠ "") → (∀ m ∈ msgs, extractOk m) →
      (((processedMessages rnd bm msgs).bind viewRecords).map recKey).Nodup) ∧
    (∀ (rnd : Nat → String) (bm : List (String × Bundle)) (m : Message) (tcid : String)
      (s : RecState) (pre post : List (String × EntryData)) (k : String) (d : EntryData),
      splitAtFirst (fun p => p.2.toolCalls.any (fun tc => tc.id = tcid)) s.messageMap =
        some (pre, (k, d), post) →
      scanHits (pre ++ (k, { d with
          toolCalls := updateFirst (fun tc => tc.id = tcid)
            (completeCall (extractStringFromMessageContent m)) d.toolCalls }) :: post) tcid ≠
        none →
      (mainResultPass rnd bm m tcid s).messageMap =
        pre ++ (k, { d with
          toolCalls := updateFirst (fun tc => tc.id = tcid)
            (completeCall (extractStringFromMessageContent m)) d.toolCalls }) :: post) :=
  ⟨processed_keys_nodup, mainResultPass_skip⟩

/-- C1 as claimed is false: a message whose legacy `tool_calls` array repeats
the same provider id yields two output records with identical composite keys
(the new-message path warns about within-batch duplicates but keeps them). -/
theorem C1_counterexample :
    ¬ (((processedMessages rnd0 [] [m1dup]).bind viewRecords).map recKey).Nodup := by
  decide

theorem C1_no_duplicate_keys_witness :
    (((processedMessages rnd0 bm1 [mA, mS, mT]).bind viewRecords).map recKey).Nodup ∧
    (mainResultPass rnd0 [] mWT "t1" sWC1).messageMap =
      [] ++ ("k", { dW with
        toolCalls := updateFirst (fun tc => tc.id = "t1")
          (completeCall (extractStringFromMessageContent mWT)) dW.toolCalls }) :: [] :=
  ⟨C1_no_duplicate_keys.1 rnd0 bm1 [mA, mS, mT] (by decide) (by decide),
   C1_no_duplicate_keys.2 rnd0 [] mWT "t1" sWC1 [] [] "k" dW (by decide) (by decide)⟩

end Janis
